import Mathlib

/-!
# Conway's Game of Life (`main.c`): a shallow embedding

The C program keeps two `int[BOARD_HEIGHT][BOARD_WIDTH]` arrays.  A board is
modelled as a list of rows of machine integers; the board dimensions, which
the source fixes through the macros `BOARD_HEIGHT` and `BOARD_WIDTH`, are
explicit parameters `H` and `W` of every function that uses them, so that the
same code can be studied at 10x10, 20x20 or 1x1.  Loops are folds over the
index ranges the C loops run through, array writes are functional updates,
and array reads are bounds-checked (`readCell`), a read outside the array
yielding the default `0` in `cell`.  The file `start.txt` is the list of its
characters, the output of `print_board` the list of the bytes written, and
the values of `rand()` are a parameter of `generate_board`.
-/

namespace GameOfLife

/-! ## Constants of the source -/

/-- Largest value of the C type `int` (32 bit). -/
def INT_MAX : Int := 2147483647

/-- `#define UNDERPOPULATION_COUNT 1` -/
def UNDERPOPULATION_COUNT : Int := 1

/-- `#define OVERPOPULATION_COUNT 4` -/
def OVERPOPULATION_COUNT : Int := 4

/-- `#define REPRODUCTION_COUNT 3` -/
def REPRODUCTION_COUNT : Int := 3

/-- `#define BOARD_HEIGHT 10` -/
def BOARD_HEIGHT : Nat := 10

/-- `#define BOARD_WIDTH 10` -/
def BOARD_WIDTH : Nat := 10

/-! ## Boards -/

/-- The contents of an `int board[H][W]`: a list of rows. -/
abbrev Board := List (List Int)

/-- The board has exactly `H` rows of exactly `W` cells, as every
`int[H][W]` array has. -/
def WellFormed (H W : Nat) (b : Board) : Prop :=
  b.length = H ∧ ∀ r ∈ b, r.length = W

instance (H W : Nat) (b : Board) : Decidable (WellFormed H W b) := by
  unfold WellFormed
  infer_instance

/-- Bounds-checked read of `board[y][x]` with C `int` indices: `none` when an
index falls outside the array. -/
def readCell (b : Board) (y x : Int) : Option Int :=
  if 0 ≤ y ∧ 0 ≤ x then
    match b[y.toNat]? with
    | some r => r[x.toNat]?
    | none => none
  else none

/-- The value of `board[y][x]`; `0` stands in for a read outside the array. -/
def cell (b : Board) (y x : Int) : Int :=
  (readCell b y x).getD 0

/-- The assignment `board[y][x] = v`. -/
def writeCell (b : Board) (y x : Nat) (v : Int) : Board :=
  match b[y]? with
  | some r => b.set y (r.set x v)
  | none => b

/-! ## `surrounding_cells` -/

/-- The adjusted offset `tempHeightCheck` (resp. `tempWidthCheck`) computed by
the two `if / else if` lines that "loop around edges of the board": `n` is the
board extent, `p` the coordinate and `d` the raw offset. -/
def wrapOffset (n : Nat) (p d : Int) : Int :=
  if p + d ≥ (n : Int) then 1 - (n : Int)
  else if p + d < 0 then (n : Int) - 1
  else d

/-- Body of the inner loop of `surrounding_cells` for one pair
`(heightCheck, widthCheck)`, acting on the counter `cells_found`. -/
def surrounding_body (H W : Nat) (board : Board) (x y : Int)
    (heightCheck widthCheck : Int) (cells_found : Int) : Int :=
  if heightCheck ≠ 0 ∨ widthCheck ≠ 0 then
    let tempHeightCheck := wrapOffset H y heightCheck
    let tempWidthCheck := wrapOffset W x widthCheck
    if cell board (y + tempHeightCheck) (x + tempWidthCheck) ≠ 0 then cells_found + 1
    else cells_found
  else cells_found

/-- `int surrounding_cells(int board[H][W], int x, int y)`. -/
def surrounding_cells (H W : Nat) (board : Board) (x y : Int) : Int :=
  [-1, 0, 1].foldl
    (fun cells_found heightCheck =>
      [-1, 0, 1].foldl
        (fun cells_found widthCheck =>
          surrounding_body H W board x y heightCheck widthCheck cells_found)
        cells_found)
    0

/-! ## `update_board` -/

/-- Body of the first loop nest of `update_board`:
`previousStepBoard[h][w] = currentStepBoard[h][w]`. -/
def copy_body (currentStepBoard : Board) (previousStepBoard : Board)
    (heightIndex widthIndex : Nat) : Board :=
  writeCell previousStepBoard heightIndex widthIndex
    (cell currentStepBoard heightIndex widthIndex)

/-- Body of the second loop nest of `update_board`, acting on
`currentStepBoard`; `previousStepBoard` is only read. -/
def rule_body (H W : Nat) (previousStepBoard : Board) (currentStepBoard : Board)
    (heightIndex widthIndex : Nat) : Board :=
  let living_cells := surrounding_cells H W previousStepBoard widthIndex heightIndex
  if cell previousStepBoard heightIndex widthIndex ≠ 0 ∧
      (living_cells ≤ UNDERPOPULATION_COUNT ∨ living_cells ≥ OVERPOPULATION_COUNT) then
    writeCell currentStepBoard heightIndex widthIndex 0
  else if cell previousStepBoard heightIndex widthIndex = 0 ∧
      living_cells = REPRODUCTION_COUNT then
    writeCell currentStepBoard heightIndex widthIndex 1
  else currentStepBoard

/-- The loop nest `for heightIndex in 0..H-1, for widthIndex in 0..W-1` that
all board functions share, threading a state through the body. -/
def board_loop {σ : Type} (H W : Nat) (body : σ → Nat → Nat → σ) (s : σ) : σ :=
  (List.range H).foldl
    (fun s heightIndex =>
      (List.range W).foldl (fun s widthIndex => body s heightIndex widthIndex) s)
    s

/-- `void update_board(int currentStepBoard[H][W], int previousStepBoard[H][W])`:
returns the contents of the two arrays after the call, current first. -/
def update_board (H W : Nat) (currentStepBoard previousStepBoard : Board) :
    Board × Board :=
  let previousStepBoard := board_loop H W (copy_body currentStepBoard) previousStepBoard
  let currentStepBoard := board_loop H W (rule_body H W previousStepBoard) currentStepBoard
  (currentStepBoard, previousStepBoard)

/-! ## `living_cells` -/

/-- `int living_cells(int board[H][W])`. -/
def living_cells (H W : Nat) (board : Board) : Int :=
  board_loop H W
    (fun cells heightIndex widthIndex =>
      if cell board heightIndex widthIndex ≠ 0 then cells + 1 else cells)
    0

/-! ## `main` -/

/-- `#define SIMULATION_SPEED 100000000`, divided in the source by
`SIMULATION_SPEED_MODIFIER` = 1.0: the pacing bound is the double 1e8, and as
every `int` converts to a double exactly, the comparison of `betweenStep`
with it is the integer comparison with 100000000. -/
def SIMULATION_SPEED : Nat := 100000000

/-- Two's-complement wrap of an integer into the range of a 32-bit `int`,
applied where the source increments an `int`. -/
def wrap32 (n : Int) : Int := (n + 2147483648) % 4294967296 - 2147483648

/-- The variables of `main`, and the calls of `print_board` made so far
(board and step argument, oldest first). -/
structure MainState where
  gameStep : Int
  betweenStep : Int
  currentStepBoard : Board
  previousStepBoard : Board
  printed : List (Board × Int)

/-- The state on entry to the `while` loop: `initial` is what
`generate_board` / `read_board` left in `currentStepBoard`, `scratch` the
uninitialised contents of `previousStepBoard`. -/
def main_init (initial scratch : Board) : MainState :=
  { gameStep := 0, betweenStep := INT_MAX, currentStepBoard := initial,
    previousStepBoard := scratch, printed := [] }

/-- The loop test `MAX_SIMULATION_STEPS >= gameStep || MAX_SIMULATION_STEPS == -1`. -/
def loop_condition (maxSteps : Int) (s : MainState) : Prop :=
  maxSteps ≥ s.gameStep ∨ maxSteps = -1

instance (maxSteps : Int) (s : MainState) : Decidable (loop_condition maxSteps s) := by
  unfold loop_condition
  infer_instance

/-- One execution of the body of the `while` loop. -/
def main_step (H W : Nat) (s : MainState) : MainState :=
  if s.betweenStep < (SIMULATION_SPEED : Int) then
    { s with betweenStep := wrap32 (s.betweenStep + 1) }
  else
    let next := update_board H W s.currentStepBoard s.previousStepBoard
    { gameStep := wrap32 (s.gameStep + 1), betweenStep := 0,
      currentStepBoard := next.1, previousStepBoard := next.2,
      printed := s.printed ++ [(s.currentStepBoard, s.gameStep)] }

/-- The `while` loop, run for at most `fuel` iterations: `some s` is the state
in which the loop test failed, `none` means the loop was still running. -/
def run_loop (H W : Nat) (maxSteps : Int) : Nat → MainState → Option MainState
  | 0, s => if loop_condition maxSteps s then none else some s
  | fuel + 1, s =>
    if loop_condition maxSteps s then run_loop H W maxSteps fuel (main_step H W s)
    else some s

/-- The function `main` with `MAX_SIMULATION_STEPS = maxSteps`: the exit code
and the calls of `print_board`, when the loop ends within `fuel` iterations. -/
def main (H W : Nat) (maxSteps : Int) (initial scratch : Board) (fuel : Nat) :
    Option (Int × List (Board × Int)) :=
  match run_loop H W maxSteps fuel (main_init initial scratch) with
  | some s => some (0, s.printed)
  | none => none

/-- The two arrays after `n` calls `update_board(currentStepBoard, previousStepBoard)`
in a row, as `main` makes them. -/
def generations (H W : Nat) : Nat → Board × Board → Board × Board
  | 0, s => s
  | n + 1, s => update_board H W (generations H W n s).1 (generations H W n s).2

/-! ## Descriptions used to state the properties -/

/-- A loop body that keeps the board well formed and changes at most the cell
it is run at, to a value `F h w old` computed from the old value. -/
structure PointUpdate (H W : Nat) (body : Board → Nat → Nat → Board)
    (F : Nat → Nat → Int → Int) : Prop where
  wf : ∀ b h w, WellFormed H W b → WellFormed H W (body b h w)
  cell_eq : ∀ b h w, WellFormed H W b → h < H → w < W → ∀ r k : Nat,
    cell (body b h w) (r : Int) (k : Int)
      = if r = h ∧ k = w then F h w (cell b (h : Int) (w : Int)) else cell b (r : Int) (k : Int)

/-- The value the second loop nest of `update_board` leaves in a cell whose
value was `old`, `prev` being the snapshot the rule reads. -/
def rule_value (H W : Nat) (prev : Board) (h w : Nat) (old : Int) : Int :=
  if cell prev (h : Int) (w : Int) ≠ 0 ∧
      (surrounding_cells H W prev w h ≤ UNDERPOPULATION_COUNT ∨
        surrounding_cells H W prev w h ≥ OVERPOPULATION_COUNT) then 0
  else if cell prev (h : Int) (w : Int) = 0 ∧
      surrounding_cells H W prev w h = REPRODUCTION_COUNT then 1
  else old

/-- The offsets `(dh, dw)` of `{-1,0,1} x {-1,0,1}` other than `(0,0)`. -/
def neighbour_offsets : List (Int × Int) :=
  (List.product [-1, 0, 1] [-1, 0, 1]).filter (fun o => o ≠ (0, 0))

/-- The neighbour count as the specification words it: the number of offsets
`(dh, dw)`, counted with multiplicity, for which the cell at
`((row + dh) mod H, (col + dw) mod W)` is alive, `mod` being the non-negative
modulo (`%` on `Int` is the Euclidean remainder). -/
def toroidal_neighbour_count (H W : Nat) (b : Board) (row col : Int) : Nat :=
  (neighbour_offsets.filter
    (fun o => cell b ((row + o.1) % (H : Int)) ((col + o.2) % (W : Int)) ≠ 0)).length

/-- The set of in-range coordinates `(row, col)` whose cell is alive. -/
def live_set (H W : Nat) (b : Board) : Finset (Nat × Nat) :=
  (Finset.range H ×ˢ Finset.range W).filter (fun p => cell b (p.1 : Int) (p.2 : Int) ≠ 0)

/-- The population as the specification words it: the number of coordinates
`(row, col)` with `row < H`, `col < W` whose cell is alive. -/
def live_coordinate_count (H W : Nat) (b : Board) : Nat :=
  (live_set H W b).card

/-- The board whose cells all hold `v`. -/
def constant_board (H W : Nat) (v : Int) : Board :=
  List.replicate H (List.replicate W v)

/-- The board of `H` rows and `W` columns whose live cells (value 1) are those
listed, as `(row, col)`. -/
def board_with (H W : Nat) (live : List (Nat × Nat)) : Board :=
  (List.range H).map (fun r => (List.range W).map (fun c => if (r, c) ∈ live then 1 else 0))

/-- The standard five-cell glider, as `(row, col)`. -/
def glider_cells : List (Nat × Nat) := [(0, 1), (1, 2), (2, 0), (2, 1), (2, 2)]

/-- The calls of `print_board` made by the first `m` renders: render `i`
shows the board after `i` calls of `update_board`, with step argument `i`. -/
def render_trace (H W : Nat) (initial scratch : Board) (m : Nat) : List (Board × Int) :=
  (List.range m).map (fun i => ((generations H W i (initial, scratch)).1, (i : Int)))

/-- The state of `main` after `m` renders, with `betweenStep = between`. -/
def rendered (H W : Nat) (initial scratch : Board) (m : Nat) (between : Int) : MainState :=
  { gameStep := (m : Int), betweenStep := between,
    currentStepBoard := (generations H W m (initial, scratch)).1,
    previousStepBoard := (generations H W m (initial, scratch)).2,
    printed := render_trace H W initial scratch m }

/-! ## `generate_board` -/

/-- `void generate_board(int board[H][W])`.  The values returned by the
successive calls of `rand()` are the parameter `rand` (call number `i`
returns `rand i`, a value between 0 and `RAND_MAX`, hence a natural number);
`board` is the content of the array before the call. -/
def generate_board (H W : Nat) (rand : Nat → Nat) (board : Board) : Board :=
  (board_loop H W
    (fun (s : Board × Nat) heightIndex widthIndex =>
      (writeCell s.1 heightIndex widthIndex ((rand s.2 : Int) % 2), s.2 + 1))
    (board, 0)).1

/-! ## `read_board` -/

/-- `isspace` in the C locale: space, and the characters 9 to 13. -/
def isspace (c : Char) : Bool :=
  c.toNat = 32 ∨ (9 ≤ c.toNat ∧ c.toNat ≤ 13)

/-- `fscanf(fp, " %c ", &character_holder)` on the unread part of the file:
white space is skipped, one character is stored, white space is skipped
again.  The result is the return value (`1`, or `EOF = -1` when the input
ends before a character is found), the character stored if any, and the
unread rest. -/
def fscanf_char (input : List Char) : Int × Option Char × List Char :=
  match input.dropWhile isspace with
  | [] => (-1, none, [])
  | c :: rest => (1, some c, rest.dropWhile isspace)

/-- The two ways `read_board` ends the process, with what it prints. -/
inductive ReadError where
  /-- `Unable to open start.txt`. -/
  | unable_to_open : ReadError
  /-- `Invalid number of cells in start.txt (only found %d out of %d)`. -/
  | invalid_number (found expected : Int) : ReadError
  deriving DecidableEq

/-- The argument of `exit` on either failure. -/
def ReadError.exit_code : ReadError → Int
  | _ => 1

/-- Body of the loop nest of `read_board`, on the board and the unread part
of the file; a failure ends the process, so the remaining iterations do
nothing.  When `fscanf` stores nothing the source assigns from the
uninitialised `character_holder` just before it exits: the value written
then, here the one for a character other than `1`, is never observed. -/
def read_body (H W : Nat) (s : Except ReadError (Board × List Char))
    (heightIndex widthIndex : Nat) : Except ReadError (Board × List Char) :=
  match s with
  | Except.error e => Except.error e
  | Except.ok (board, input) =>
    let r := fscanf_char input
    let board := writeCell board heightIndex widthIndex (if r.2.1 = some '1' then 1 else 0)
    if r.1 < 1 then
      Except.error (ReadError.invalid_number
        ((heightIndex : Int) * (W : Int) + (widthIndex : Int)) ((W : Int) * (H : Int)))
    else Except.ok (board, r.2.2)

/-- `void read_board(int board[H][W])`: `file` is the content of `start.txt`,
`none` when it cannot be opened; `board` is the content of the array before
the call.  The result is the filled board, or the failure that ends the
process. -/
def read_board (H W : Nat) (board : Board) (file : Option (List Char)) :
    Except ReadError Board :=
  match file with
  | none => Except.error ReadError.unable_to_open
  | some content =>
    match board_loop H W (read_body H W) (Except.ok (board, content)) with
    | Except.ok s => Except.ok s.1
    | Except.error e => Except.error e

/-! ## `print_board` and `display_stats` -/

/-- `#define SHOW_DEAD_CELLS 0` -/
def SHOW_DEAD_CELLS : Int := 0

/-- `#define DISPLAY_STATS 1` -/
def DISPLAY_STATS : Int := 1

/-- The bytes of a text. -/
def text_bytes (s : String) : List Nat :=
  s.toList.map Char.toNat

/-- The bytes `printf` writes for a `%d` conversion: the decimal digits, after
a minus sign for a negative number. -/
def format_d (n : Int) : List Nat :=
  text_bytes (toString n)

/-- `void display_stats(int board[H][W], int step)`: the bytes written. -/
def display_stats (H W : Nat) (board : Board) (step : Int) : List Nat :=
  text_bytes "There are " ++ format_d (living_cells H W board)
    ++ text_bytes " cells alive on game step " ++ format_d step ++ [10]

/-- `void print_board(int board[H][W], int step)`: the bytes written after
`system("cls")` has cleared the screen. -/
def print_board (H W : Nat) (board : Board) (step : Int) : List Nat :=
  let out := if DISPLAY_STATS ≠ 0 then display_stats H W board step else []
  (List.range H).foldl
    (fun (out : List Nat) (heightIndex : Nat) =>
      (List.range W).foldl
        (fun (out : List Nat) (widthIndex : Nat) =>
          if cell board heightIndex widthIndex ≠ 0 then out ++ [219, 219]
          else if SHOW_DEAD_CELLS ≠ 0 then out ++ [176, 176]
          else out ++ [32, 32])
        out ++ [10])
    out

/-! ## Bounds-checked execution -/

/-- The assignment `board[y][x] = v` with bounds-checked indexing: `none` when
an index falls outside the array. -/
def writeCell_checked (b : Board) (y x : Nat) (v : Int) : Option Board :=
  match b[y]? with
  | some r => if x < r.length then some (b.set y (r.set x v)) else none
  | none => none

/-- The body of the inner loop of `surrounding_cells` with bounds-checked
indexing. -/
def surrounding_body_checked (H W : Nat) (board : Board) (x y : Int)
    (heightCheck widthCheck : Int) (cells_found : Int) : Option Int :=
  if heightCheck ≠ 0 ∨ widthCheck ≠ 0 then
    let tempHeightCheck := wrapOffset H y heightCheck
    let tempWidthCheck := wrapOffset W x widthCheck
    match readCell board (y + tempHeightCheck) (x + tempWidthCheck) with
    | some v => if v ≠ 0 then some (cells_found + 1) else some cells_found
    | none => none
  else some cells_found

/-- `surrounding_cells` with bounds-checked indexing: `none` as soon as one
access falls outside the array. -/
def surrounding_cells_checked (H W : Nat) (board : Board) (x y : Int) : Option Int :=
  [-1, 0, 1].foldl
    (fun cells_found heightCheck =>
      [-1, 0, 1].foldl
        (fun cells_found widthCheck =>
          cells_found.bind (surrounding_body_checked H W board x y heightCheck widthCheck))
        cells_found)
    (some 0)

/-- The body of the first loop nest of `update_board` with bounds-checked
indexing. -/
def copy_body_checked (currentStepBoard : Board) (previousStepBoard : Board)
    (heightIndex widthIndex : Nat) : Option Board :=
  (readCell currentStepBoard heightIndex widthIndex).bind
    (fun v => writeCell_checked previousStepBoard heightIndex widthIndex v)

/-- The body of the second loop nest of `update_board` with bounds-checked
indexing. -/
def rule_body_checked (H W : Nat) (previousStepBoard : Board) (currentStepBoard : Board)
    (heightIndex widthIndex : Nat) : Option Board :=
  (surrounding_cells_checked H W previousStepBoard widthIndex heightIndex).bind
    (fun living_cells =>
      (readCell previousStepBoard heightIndex widthIndex).bind
        (fun v =>
          if v ≠ 0 ∧
              (living_cells ≤ UNDERPOPULATION_COUNT ∨ living_cells ≥ OVERPOPULATION_COUNT) then
            writeCell_checked currentStepBoard heightIndex widthIndex 0
          else if v = 0 ∧ living_cells = REPRODUCTION_COUNT then
            writeCell_checked currentStepBoard heightIndex widthIndex 1
          else some currentStepBoard))

/-- `update_board` with bounds-checked indexing: `none` as soon as one access
falls outside an array. -/
def update_board_checked (H W : Nat) (currentStepBoard previousStepBoard : Board) :
    Option (Board × Board) :=
  (board_loop H W
      (fun s heightIndex widthIndex =>
        s.bind (fun p => copy_body_checked currentStepBoard p heightIndex widthIndex))
      (some previousStepBoard)).bind
    (fun previousStepBoard =>
      (board_loop H W
          (fun s heightIndex widthIndex =>
            s.bind (fun c => rule_body_checked H W previousStepBoard c heightIndex widthIndex))
          (some currentStepBoard)).map
        (fun currentStepBoard => (currentStepBoard, previousStepBoard)))

/-! ## The states of the main loop, and descriptions of files and output -/

/-- The states the `while` loop of `main` passes through, started on the
board `initial` with the scratch buffer `scratch`: each step is one
execution of the loop body in a state that satisfies the loop test. -/
inductive Reachable (H W : Nat) (maxSteps : Int) (initial scratch : Board) :
    MainState → Prop where
  | start : Reachable H W maxSteps initial scratch (main_init initial scratch)
  | step {s : MainState} : Reachable H W maxSteps initial scratch s →
      loop_condition maxSteps s → Reachable H W maxSteps initial scratch (main_step H W s)

/-- Every cell of the board holds 0 or 1. -/
def Binary (b : Board) : Prop :=
  ∀ r ∈ b, ∀ v ∈ r, v = 0 ∨ v = 1

instance (b : Board) : Decidable (Binary b) := by
  unfold Binary
  infer_instance

/-- The non-whitespace characters of a text, in order. -/
def nonspace (content : List Char) : List Char :=
  content.filter (fun c => !isspace c)

/-- The whitespace-delimited tokens of a text, `current` being the token
under construction. -/
def tokens_from : List Char → List Char → List (List Char)
  | [], current => if current = [] then [] else [current]
  | c :: cs, current =>
    if isspace c then
      if current = [] then tokens_from cs [] else current :: tokens_from cs []
    else tokens_from cs (current ++ [c])

/-- The whitespace-delimited tokens of a text. -/
def tokens (content : List Char) : List (List Char) :=
  tokens_from content []

/-- The character that stands for a cell in `start.txt`: `1` for a live cell,
`0` for a dead one. -/
def cell_char (v : Int) : Char :=
  if v ≠ 0 then '1' else '0'

/-- Modelled from the spec: the repository has no writer of `start.txt`; this
is the startup file format of the specification, "a whitespace-delimited
sequence of `height x width` tokens, each exactly the character `0` (dead) or
`1` (alive), read in row-major order". -/
def startup_format (b : Board) (content : List Char) : Prop :=
  tokens content = b.flatten.map (fun v => [cell_char v])

instance (b : Board) (content : List Char) : Decidable (startup_format b content) := by
  unfold startup_format
  infer_instance

/-- Modelled from the spec: a writer of the startup file format, which puts
the cells in row-major order, one character per cell, each followed by the
whitespace `gap`. -/
def write_board (gap : List Char) (b : Board) : List Char :=
  (b.map (fun row => (row.map (fun v => cell_char v :: gap)).flatten)).flatten

/-- The text `print_board` is specified to emit with the default flags: the
statistics line, then one newline-terminated line per row, made of one
two-byte glyph per cell. -/
def board_text (H W : Nat) (board : Board) (step : Int) : List Nat :=
  (text_bytes "There are " ++ format_d (living_cells H W board)
      ++ text_bytes " cells alive on game step " ++ format_d step ++ [10])
    ++ ((List.range H).map (fun (row : Nat) =>
        ((List.range W).map (fun (col : Nat) =>
          if cell board (row : Int) (col : Int) ≠ 0 then [219, 219] else [32, 32])).flatten
          ++ [10])).flatten

/-! ## Reading and writing well-formed boards -/

theorem cell_cast (b : Board) (r k : Nat) :
    cell b (r : Int) (k : Int) = ((b[r]?).bind (fun row => row[k]?)).getD 0 := by
  simp only [cell, readCell, Int.toNat_ofNat, Int.ofNat_nonneg, and_self, if_true]
  cases b[r]? <;> rfl

theorem cell_of_lt {H W : Nat} {b : Board} (hb : WellFormed H W b) {r k : Nat}
    (hr : r < H) (hk : k < W) :
    ∃ (h1 : r < b.length) (h2 : k < (b[r]).length), cell b (r : Int) (k : Int) = (b[r])[k] := by
  have h1 : r < b.length := by rw [hb.1]; exact hr
  have h2 : k < (b[r]).length := by rw [hb.2 _ (List.getElem_mem h1)]; exact hk
  refine ⟨h1, h2, ?_⟩
  simp [cell_cast, List.getElem?_eq_getElem h1, List.getElem?_eq_getElem h2]

/-- Two well-formed boards with the same cells are equal. -/
theorem board_ext {H W : Nat} {a b : Board} (ha : WellFormed H W a) (hb : WellFormed H W b)
    (h : ∀ r k : Nat, r < H → k < W → cell a (r : Int) (k : Int) = cell b (r : Int) (k : Int)) :
    a = b := by
  apply List.ext_getElem (by rw [ha.1, hb.1])
  intro r h1 h2
  have hr : r < H := by rw [← ha.1]; exact h1
  apply List.ext_getElem
      (by rw [ha.2 _ (List.getElem_mem h1), hb.2 _ (List.getElem_mem h2)])
  intro k h3 h4
  have hk : k < W := by rw [← ha.2 _ (List.getElem_mem h1)]; exact h3
  obtain ⟨_, _, ea⟩ := cell_of_lt ha hr hk
  obtain ⟨_, _, eb⟩ := cell_of_lt hb hr hk
  rw [← ea, ← eb]
  exact h r k hr hk

theorem writeCell_wellFormed {H W : Nat} {b : Board} (hb : WellFormed H W b)
    (y x : Nat) (v : Int) : WellFormed H W (writeCell b y x v) := by
  unfold writeCell
  cases hrow : b[y]? with
  | none => exact hb
  | some row =>
    have hmem : row ∈ b := List.getElem?_mem hrow
    refine ⟨by simp [hb.1], ?_⟩
    intro r hr
    rcases List.mem_or_eq_of_mem_set hr with h | h
    · exact hb.2 r h
    · rw [h, List.length_set]; exact hb.2 row hmem

theorem cell_writeCell {H W : Nat} {b : Board} (hb : WellFormed H W b)
    {y x : Nat} (hy : y < H) (hx : x < W) (v : Int) (r k : Nat) :
    cell (writeCell b y x v) (r : Int) (k : Int)
      = if r = y ∧ k = x then v else cell b (r : Int) (k : Int) := by
  have h1 : y < b.length := by rw [hb.1]; exact hy
  have h2 : x < (b[y]).length := by rw [hb.2 _ (List.getElem_mem h1)]; exact hx
  simp only [writeCell, List.getElem?_eq_getElem h1, cell_cast, List.getElem?_set]
  by_cases hry : r = y
  · subst hry
    by_cases hkx : k = x
    · subst hkx
      simp [h1, h2]
    · simp [h1, hkx, Ne.symm hkx, List.getElem?_set]
  · simp [hry, Ne.symm hry]

/-! ## The shared loop nest -/

/-- Invariant of the inner loop on row `h`: columns below `n` are updated,
every other cell is untouched. -/
theorem row_loop_spec {H W : Nat} {body : Board → Nat → Nat → Board}
    {F : Nat → Nat → Int → Int} (hp : PointUpdate H W body F) {h : Nat} (hh : h < H)
    (b : Board) (hb : WellFormed H W b) (n : Nat) (hn : n ≤ W) :
    WellFormed H W ((List.range n).foldl (fun s w => body s h w) b) ∧
    ∀ r k : Nat, cell ((List.range n).foldl (fun s w => body s h w) b) (r : Int) (k : Int)
      = if r = h ∧ k < n then F h k (cell b (h : Int) (k : Int)) else cell b (r : Int) (k : Int) := by
  induction n with
  | zero => simp [hb]
  | succ n ih =>
    obtain ⟨wf, ce⟩ := ih (Nat.le_of_succ_le hn)
    rw [List.range_succ, List.foldl_append]
    simp only [List.foldl_cons, List.foldl_nil]
    refine ⟨hp.wf _ _ _ wf, ?_⟩
    intro r k
    rw [hp.cell_eq _ _ _ wf hh (Nat.lt_of_succ_le hn), ce, ce]
    by_cases hr : r = h
    · by_cases hk : k = n
      · subst hk; simp [hr]
      · have : k < n + 1 ↔ k < n := by omega
        simp [hr, hk, this]
    · simp [hr]

/-- Invariant of the outer loop: rows below `m` are updated, the others are
untouched. -/
theorem board_loop_spec {H W : Nat} {body : Board → Nat → Nat → Board}
    {F : Nat → Nat → Int → Int} (hp : PointUpdate H W body F)
    (b : Board) (hb : WellFormed H W b) (m : Nat) (hm : m ≤ H) :
    WellFormed H W ((List.range m).foldl
        (fun s h => (List.range W).foldl (fun s w => body s h w) s) b) ∧
    ∀ r k : Nat, k < W →
      cell ((List.range m).foldl
        (fun s h => (List.range W).foldl (fun s w => body s h w) s) b) (r : Int) (k : Int)
      = if r < m then F r k (cell b (r : Int) (k : Int)) else cell b (r : Int) (k : Int) := by
  induction m with
  | zero => simp [hb]
  | succ m ih =>
    obtain ⟨wf, ce⟩ := ih (Nat.le_of_succ_le hm)
    rw [List.range_succ, List.foldl_append]
    simp only [List.foldl_cons, List.foldl_nil]
    obtain ⟨wf2, ce2⟩ := row_loop_spec hp (Nat.lt_of_succ_le hm) _ wf W (Nat.le_refl W)
    refine ⟨wf2, ?_⟩
    intro r k hk
    rw [ce2, ce _ _ hk, ce _ _ hk]
    by_cases hr : r = m
    · subst hr; simp [hk]
    · have : r < m + 1 ↔ r < m := by omega
      simp [hr, this]

theorem board_loop_wellFormed {H W : Nat} {body : Board → Nat → Nat → Board}
    {F : Nat → Nat → Int → Int} (hp : PointUpdate H W body F)
    {b : Board} (hb : WellFormed H W b) : WellFormed H W (board_loop H W body b) :=
  (board_loop_spec hp b hb H (Nat.le_refl H)).1

theorem board_loop_cell {H W : Nat} {body : Board → Nat → Nat → Board}
    {F : Nat → Nat → Int → Int} (hp : PointUpdate H W body F)
    {b : Board} (hb : WellFormed H W b) {r k : Nat} (hr : r < H) (hk : k < W) :
    cell (board_loop H W body b) (r : Int) (k : Int) = F r k (cell b (r : Int) (k : Int)) := by
  have := (board_loop_spec hp b hb H (Nat.le_refl H)).2 r k hk
  simpa [board_loop, hr] using this

theorem copy_body_pointUpdate (H W : Nat) (cur : Board) :
    PointUpdate H W (copy_body cur) (fun h w _ => cell cur (h : Int) (w : Int)) where
  wf := fun b h w hb => writeCell_wellFormed hb h w _
  cell_eq := fun b h w hb hh hw r k => by
    simp only [copy_body]
    exact cell_writeCell hb hh hw _ r k

theorem rule_body_pointUpdate (H W : Nat) (prev : Board) :
    PointUpdate H W (rule_body H W prev) (rule_value H W prev) where
  wf := fun b h w hb => by
    simp only [rule_body]
    split_ifs
    · exact writeCell_wellFormed hb h w _
    · exact writeCell_wellFormed hb h w _
    · exact hb
  cell_eq := fun b h w hb hh hw r k => by
    simp only [rule_body, rule_value]
    by_cases h1 : cell prev (h : Int) (w : Int) ≠ 0 ∧
        (surrounding_cells H W prev w h ≤ UNDERPOPULATION_COUNT ∨
          surrounding_cells H W prev w h ≥ OVERPOPULATION_COUNT)
    · rw [if_pos h1, if_pos h1]
      exact cell_writeCell hb hh hw _ r k
    · rw [if_neg h1, if_neg h1]
      by_cases h2 : cell prev (h : Int) (w : Int) = 0 ∧
          surrounding_cells H W prev w h = REPRODUCTION_COUNT
      · rw [if_pos h2, if_pos h2]
        exact cell_writeCell hb hh hw _ r k
      · rw [if_neg h2, if_neg h2]
        split_ifs with h3
        · rw [h3.1, h3.2]
        · rfl

/-! ## `surrounding_cells` counts the toroidal neighbours -/

/-- The adjusted offset lands on the coordinate reduced modulo the extent. -/
theorem wrapOffset_emod {n : Nat} {p : Int} (h0 : 0 ≤ p) (hn : p < (n : Int)) {d : Int}
    (hd : d = -1 ∨ d = 0 ∨ d = 1) : p + wrapOffset n p d = (p + d) % (n : Int) := by
  unfold wrapOffset
  split_ifs with h1 h2
  · have e : p + d = (n : Int) := by omega
    rw [e, Int.emod_self]; omega
  · have e : p + d = ((n : Int) - 1) + (-1) * (n : Int) := by omega
    rw [e, Int.add_mul_emod_self, Int.emod_eq_of_lt] <;> omega
  · rw [Int.emod_eq_of_lt] <;> omega

theorem neighbour_offsets_eq :
    neighbour_offsets = [(-1, -1), (-1, 0), (-1, 1), (0, -1), (0, 1), (1, -1), (1, 0), (1, 1)] := by
  decide

theorem surrounding_body_eq {H W : Nat} (b : Board) {x y : Int}
    (hx0 : 0 ≤ x) (hx : x < (W : Int)) (hy0 : 0 ≤ y) (hy : y < (H : Int))
    {dh dw : Int} (hdh : dh = -1 ∨ dh = 0 ∨ dh = 1) (hdw : dw = -1 ∨ dw = 0 ∨ dw = 1)
    (hne : dh ≠ 0 ∨ dw ≠ 0) (acc : Int) :
    surrounding_body H W b x y dh dw acc
      = acc + if cell b ((y + dh) % (H : Int)) ((x + dw) % (W : Int)) ≠ 0 then 1 else 0 := by
  simp only [surrounding_body, if_pos hne, wrapOffset_emod hy0 hy hdh, wrapOffset_emod hx0 hx hdw]
  split_ifs <;> simp

/-- The count of `surrounding_cells` is the toroidal neighbour count. -/
theorem surrounding_cells_eq_count {H W : Nat} (b : Board) {x y : Int}
    (hx0 : 0 ≤ x) (hx : x < (W : Int)) (hy0 : 0 ≤ y) (hy : y < (H : Int)) :
    surrounding_cells H W b x y = (toroidal_neighbour_count H W b y x : Int) := by
  have hb := fun (dh dw : Int) (hdh : dh = -1 ∨ dh = 0 ∨ dh = 1)
    (hdw : dw = -1 ∨ dw = 0 ∨ dw = 1) (hne : dh ≠ 0 ∨ dw ≠ 0) (acc : Int) =>
      surrounding_body_eq b hx0 hx hy0 hy hdh hdw hne acc
  simp only [surrounding_cells, List.foldl_cons, List.foldl_nil]
  have h00 : ∀ acc, surrounding_body H W b x y 0 0 acc = acc := by
    intro acc; simp [surrounding_body]
  simp only [h00, hb (-1) (-1) (by decide) (by decide) (by decide),
    hb (-1) (0) (by decide) (by decide) (by decide),
    hb (-1) (1) (by decide) (by decide) (by decide),
    hb (0) (-1) (by decide) (by decide) (by decide),
    hb (0) (1) (by decide) (by decide) (by decide),
    hb (1) (-1) (by decide) (by decide) (by decide),
    hb (1) (0) (by decide) (by decide) (by decide),
    hb (1) (1) (by decide) (by decide) (by decide)]
  simp only [toroidal_neighbour_count, neighbour_offsets_eq, ← List.countP_eq_length_filter,
    List.countP_cons, List.countP_nil]
  simp only [decide_eq_true_eq]
  push_cast
  ring

/-! ## What `update_board` leaves in the two arrays -/

/-- The copy loop leaves the pre-call current board in the previous-step
buffer. -/
theorem update_board_snd {H W : Nat} {cur prev : Board}
    (hc : WellFormed H W cur) (hp : WellFormed H W prev) :
    (update_board H W cur prev).2 = cur := by
  have hu := copy_body_pointUpdate H W cur
  apply board_ext (board_loop_wellFormed hu hp) hc
  intro r k hr hk
  exact board_loop_cell hu hp hr hk

theorem update_board_fst {H W : Nat} {cur prev : Board}
    (hc : WellFormed H W cur) (hp : WellFormed H W prev) :
    (update_board H W cur prev).1 = board_loop H W (rule_body H W cur) cur := by
  have h := update_board_snd hc hp
  simp only [update_board] at h ⊢
  rw [h]

theorem update_board_wellFormed {H W : Nat} {cur prev : Board}
    (hc : WellFormed H W cur) (hp : WellFormed H W prev) :
    WellFormed H W (update_board H W cur prev).1 := by
  rw [update_board_fst hc hp]
  exact board_loop_wellFormed (rule_body_pointUpdate H W cur) hc

/-- Every in-range cell of the new current board is the rule applied to the
old board. -/
theorem update_board_cell {H W : Nat} {cur prev : Board}
    (hc : WellFormed H W cur) (hp : WellFormed H W prev) {r k : Nat} (hr : r < H) (hk : k < W) :
    cell (update_board H W cur prev).1 (r : Int) (k : Int)
      = rule_value H W cur r k (cell cur (r : Int) (k : Int)) := by
  rw [update_board_fst hc hp]
  exact board_loop_cell (rule_body_pointUpdate H W cur) hc hr hk

theorem toroidal_neighbour_count_le (H W : Nat) (b : Board) (row col : Int) :
    toroidal_neighbour_count H W b row col ≤ 8 := by
  unfold toroidal_neighbour_count
  exact le_trans (List.length_filter_le _ _) (by rw [neighbour_offsets_eq]; simp)

/-- Claim C2: for every in-range cell `(row, col)` of an `H` by `W` board,
`surrounding_cells(board, col, row)` is the number of offsets `(dh, dw)` of
`{-1,0,1} x {-1,0,1}` other than `(0,0)`, counted with multiplicity, whose
cell `((row + dh) mod H, (col + dw) mod W)` is alive, with the non-negative
modulo. -/
theorem surrounding_cells_toroidal (H W : Nat) (board : Board) (row col : Nat)
    (hrow : row < H) (hcol : col < W) :
    surrounding_cells H W board (col : Int) (row : Int)
      = (toroidal_neighbour_count H W board (row : Int) (col : Int) : Int) :=
  surrounding_cells_eq_count board (Int.ofNat_nonneg col) (Int.ofNat_lt.mpr hcol)
    (Int.ofNat_nonneg row) (Int.ofNat_lt.mpr hrow)

/-- Instance of claim C2 at the corner `(0, 0)` of a 3x3 board, where five of
the eight offsets wrap. -/
theorem surrounding_cells_toroidal_witness :
    0 < 3 ∧
    surrounding_cells 3 3 [[0, 1, 0], [0, 0, 1], [1, 1, 1]] ((0 : Nat) : Int) ((0 : Nat) : Int)
      = (toroidal_neighbour_count 3 3 [[0, 1, 0], [0, 0, 1], [1, 1, 1]]
          ((0 : Nat) : Int) ((0 : Nat) : Int) : Int) :=
  ⟨by decide,
    surrounding_cells_toroidal 3 3 [[0, 1, 0], [0, 0, 1], [1, 1, 1]] 0 0 (by decide) (by decide)⟩

/-- Claim C4: for every board, whatever its cells hold, and every in-range
coordinate, `surrounding_cells(board, x, y)` returns a value between 0 and 8. -/
theorem surrounding_cells_range (H W : Nat) (board : Board) (x y : Nat)
    (hy : y < H) (hx : x < W) :
    0 ≤ surrounding_cells H W board (x : Int) (y : Int) ∧
    surrounding_cells H W board (x : Int) (y : Int) ≤ 8 := by
  rw [surrounding_cells_eq_count board (Int.ofNat_nonneg x) (Int.ofNat_lt.mpr hx)
    (Int.ofNat_nonneg y) (Int.ofNat_lt.mpr hy)]
  have h := toroidal_neighbour_count_le H W board (y : Int) (x : Int)
  omega

/-- Instance of claim C4 on the default 10x10 board size, at cell
`(y, x) = (9, 0)` of a board holding arbitrary integers. -/
theorem surrounding_cells_range_witness :
    9 < BOARD_HEIGHT ∧ 0 < BOARD_WIDTH ∧
    0 ≤ surrounding_cells BOARD_HEIGHT BOARD_WIDTH (constant_board 10 10 (-7))
      ((0 : Nat) : Int) ((9 : Nat) : Int) ∧
    surrounding_cells BOARD_HEIGHT BOARD_WIDTH (constant_board 10 10 (-7))
      ((0 : Nat) : Int) ((9 : Nat) : Int) ≤ 8 :=
  ⟨by decide, by decide,
    surrounding_cells_range BOARD_HEIGHT BOARD_WIDTH (constant_board 10 10 (-7)) 0 9
      (by decide) (by decide)⟩

/-! ## The transition rule -/

/-- Claim C1: on an `H` by `W` board `b`, for every in-range cell `(row, col)`
with `n = surrounding_cells(b, col, row)`, after `update_board` (whatever the
previous-step buffer held) the cell is 0 if it was alive and `n <= 1` or
`n >= 4`, is 1 if it was dead and `n = 3`, and is unchanged otherwise. -/
theorem update_board_rule (H W : Nat) (b previous : Board)
    (hb : WellFormed H W b) (hprev : WellFormed H W previous)
    (row col : Nat) (hrow : row < H) (hcol : col < W) :
    (cell b row col ≠ 0 ∧
        (surrounding_cells H W b col row ≤ 1 ∨ surrounding_cells H W b col row ≥ 4) →
      cell (update_board H W b previous).1 row col = 0) ∧
    (cell b row col = 0 ∧ surrounding_cells H W b col row = 3 →
      cell (update_board H W b previous).1 row col = 1) ∧
    (¬ (cell b row col ≠ 0 ∧
        (surrounding_cells H W b col row ≤ 1 ∨ surrounding_cells H W b col row ≥ 4)) →
      ¬ (cell b row col = 0 ∧ surrounding_cells H W b col row = 3) →
      cell (update_board H W b previous).1 row col = cell b row col) := by
  rw [update_board_cell hb hprev hrow hcol]
  simp only [rule_value, UNDERPOPULATION_COUNT, OVERPOPULATION_COUNT, REPRODUCTION_COUNT]
  refine ⟨fun h => if_pos h, fun h => ?_, fun h1 h2 => ?_⟩
  · rw [if_neg (fun h1 => h1.1 h.1), if_pos h]
  · rw [if_neg h1, if_neg h2]

/-- Instance of claim C1: a lone live cell in the middle of a 3x3 board has no
live neighbour and dies. -/
theorem update_board_rule_witness :
    WellFormed 3 3 [[0, 0, 0], [0, 7, 0], [0, 0, 0]] ∧
    WellFormed 3 3 [[5, 5, 5], [5, 5, 5], [5, 5, 5]] ∧ 1 < 3 ∧
    (cell [[0, 0, 0], [0, 7, 0], [0, 0, 0]] (1 : Nat) (1 : Nat) ≠ 0 ∧
      (surrounding_cells 3 3 [[0, 0, 0], [0, 7, 0], [0, 0, 0]] (1 : Nat) (1 : Nat) ≤ 1 ∨
        surrounding_cells 3 3 [[0, 0, 0], [0, 7, 0], [0, 0, 0]] (1 : Nat) (1 : Nat) ≥ 4)) ∧
    cell (update_board 3 3 [[0, 0, 0], [0, 7, 0], [0, 0, 0]]
      [[5, 5, 5], [5, 5, 5], [5, 5, 5]]).1 (1 : Nat) (1 : Nat) = 0 :=
  ⟨by decide, by decide, by decide, by decide,
    (update_board_rule 3 3 [[0, 0, 0], [0, 7, 0], [0, 0, 0]] [[5, 5, 5], [5, 5, 5], [5, 5, 5]]
      (by decide) (by decide) 1 1 (by decide) (by decide)).1 (by decide)⟩

/-- Claim C3: with the default thresholds the step is classical Conway
B3/S23: a live cell with 2 or 3 live neighbours stays alive, a live cell with
0, 1 or at least 4 dies, a dead cell with exactly 3 becomes alive, and a dead
cell with any other count stays dead. -/
theorem update_board_conway (H W : Nat) (b previous : Board)
    (hb : WellFormed H W b) (hprev : WellFormed H W previous)
    (row col : Nat) (hrow : row < H) (hcol : col < W) :
    (cell b row col ≠ 0 →
        surrounding_cells H W b col row = 2 ∨ surrounding_cells H W b col row = 3 →
      cell (update_board H W b previous).1 row col ≠ 0) ∧
    (cell b row col ≠ 0 →
        surrounding_cells H W b col row = 0 ∨ surrounding_cells H W b col row = 1 ∨
          surrounding_cells H W b col row ≥ 4 →
      cell (update_board H W b previous).1 row col = 0) ∧
    (cell b row col = 0 → surrounding_cells H W b col row = 3 →
      cell (update_board H W b previous).1 row col ≠ 0) ∧
    (cell b row col = 0 → surrounding_cells H W b col row ≠ 3 →
      cell (update_board H W b previous).1 row col = 0) := by
  rw [update_board_cell hb hprev hrow hcol]
  simp only [rule_value, UNDERPOPULATION_COUNT, OVERPOPULATION_COUNT, REPRODUCTION_COUNT]
  refine ⟨fun ha hn => ?_, fun ha hn => ?_, fun hd hn => ?_, fun hd hn => ?_⟩
  · rw [if_neg (by omega), if_neg (fun h => ha h.1)]
    exact ha
  · rw [if_pos ⟨ha, by omega⟩]
  · rw [if_neg (fun h => h.1 hd), if_pos ⟨hd, hn⟩]
    decide
  · rw [if_neg (fun h => h.1 hd), if_neg (fun h => hn h.2)]
    exact hd

/-- Instance of claim C3: the dead centre of a 3x3 board with exactly three
live neighbours becomes alive. -/
theorem update_board_conway_witness :
    WellFormed 3 3 [[1, 1, 0], [1, 0, 0], [0, 0, 0]] ∧
    WellFormed 3 3 [[0, 0, 0], [0, 0, 0], [0, 0, 0]] ∧ 1 < 3 ∧
    cell [[1, 1, 0], [1, 0, 0], [0, 0, 0]] (1 : Nat) (1 : Nat) = 0 ∧
    surrounding_cells 3 3 [[1, 1, 0], [1, 0, 0], [0, 0, 0]] (1 : Nat) (1 : Nat) = 3 ∧
    cell (update_board 3 3 [[1, 1, 0], [1, 0, 0], [0, 0, 0]]
      [[0, 0, 0], [0, 0, 0], [0, 0, 0]]).1 (1 : Nat) (1 : Nat) ≠ 0 :=
  ⟨by decide, by decide, by decide, by decide, by decide,
    (update_board_conway 3 3 [[1, 1, 0], [1, 0, 0], [0, 0, 0]] [[0, 0, 0], [0, 0, 0], [0, 0, 0]]
      (by decide) (by decide) 1 1 (by decide) (by decide)).2.2.1 (by decide) (by decide)⟩

/-- Claim C8: the next generation `update_board` writes to `currentStepBoard`
is a function of the pre-call contents of `currentStepBoard` alone, whatever
the scratch buffer `previousStepBoard` held beforehand. -/
theorem update_board_deterministic (H W : Nat) (currentStepBoard scratch1 scratch2 : Board)
    (hc : WellFormed H W currentStepBoard)
    (h1 : WellFormed H W scratch1) (h2 : WellFormed H W scratch2) :
    (update_board H W currentStepBoard scratch1).1
      = (update_board H W currentStepBoard scratch2).1 := by
  rw [update_board_fst hc h1, update_board_fst hc h2]

/-- Instance of claim C8 on a 2x2 board with two different scratch buffers. -/
theorem update_board_deterministic_witness :
    WellFormed 2 2 [[1, 0], [0, 1]] ∧ WellFormed 2 2 [[9, 9], [9, 9]] ∧
    WellFormed 2 2 [[0, -3], [4, 0]] ∧
    (update_board 2 2 [[1, 0], [0, 1]] [[9, 9], [9, 9]]).1
      = (update_board 2 2 [[1, 0], [0, 1]] [[0, -3], [4, 0]]).1 :=
  ⟨by decide, by decide, by decide,
    update_board_deterministic 2 2 [[1, 0], [0, 1]] [[9, 9], [9, 9]] [[0, -3], [4, 0]]
      (by decide) (by decide) (by decide)⟩

/-- Claim C9, as the code has it: `update_board` writes to both arrays; the
contents of `previousStepBoard` after the call equal its contents before the
call exactly when it already held the pre-call contents of
`currentStepBoard`, with which it is overwritten. -/
theorem update_board_previous_unchanged_iff (H W : Nat)
    (currentStepBoard previousStepBoard : Board)
    (hc : WellFormed H W currentStepBoard) (hp : WellFormed H W previousStepBoard) :
    (update_board H W currentStepBoard previousStepBoard).2 = previousStepBoard
      ↔ previousStepBoard = currentStepBoard := by
  rw [update_board_snd hc hp]
  exact eq_comm

/-- Instance of the amended claim C9: a previous-step buffer that differs from
the current board does not survive the call. -/
theorem update_board_previous_unchanged_iff_witness :
    WellFormed 2 2 [[1, 1], [1, 1]] ∧ WellFormed 2 2 [[0, 0], [0, 0]] ∧
    ((update_board 2 2 [[1, 1], [1, 1]] [[0, 0], [0, 0]]).2 = [[0, 0], [0, 0]]
      ↔ ([[0, 0], [0, 0]] : Board) = [[1, 1], [1, 1]]) :=
  ⟨by decide, by decide,
    update_board_previous_unchanged_iff 2 2 [[1, 1], [1, 1]] [[0, 0], [0, 0]]
      (by decide) (by decide)⟩

/-- Claim C9 fails as stated: called with an all-alive current board and an
all-dead previous-step buffer, `update_board` changes the previous-step
buffer (it becomes the all-alive board). -/
theorem update_board_mutates_previous :
    WellFormed 2 2 [[1, 1], [1, 1]] ∧ WellFormed 2 2 [[0, 0], [0, 0]] ∧
    (update_board 2 2 [[1, 1], [1, 1]] [[0, 0], [0, 0]]).2 ≠ [[0, 0], [0, 0]] ∧
    (update_board 2 2 [[1, 1], [1, 1]] [[0, 0], [0, 0]]).2 = [[1, 1], [1, 1]] := by
  decide

/-! ## `living_cells` counts the live cells -/

theorem count_loop_eq (p : Nat → Prop) [DecidablePred p] (n : Nat) (a : Int) :
    (List.range n).foldl (fun s w => if p w then s + 1 else s) a
      = a + ∑ w in Finset.range n, (if p w then (1 : Int) else 0) := by
  induction n with
  | zero => simp
  | succ n ih =>
    rw [List.range_succ, List.foldl_append, ih, Finset.sum_range_succ]
    simp only [List.foldl_cons, List.foldl_nil]
    split_ifs <;> ring

theorem sum_loop_eq (f : Nat → Int) (m : Nat) (a : Int) :
    (List.range m).foldl (fun s h => s + f h) a = a + ∑ h in Finset.range m, f h := by
  induction m with
  | zero => simp
  | succ m ih =>
    rw [List.range_succ, List.foldl_append, ih, Finset.sum_range_succ]
    simp only [List.foldl_cons, List.foldl_nil]
    ring

/-- The count of `living_cells` is the number of live coordinates. -/
theorem living_cells_eq_count (H W : Nat) (b : Board) :
    living_cells H W b = (live_coordinate_count H W b : Int) := by
  simp only [living_cells, board_loop, live_coordinate_count, live_set]
  simp only [count_loop_eq (fun w => cell b (_ : Int) (w : Int) ≠ 0)]
  rw [sum_loop_eq, Finset.card_filter, Finset.sum_product]
  push_cast
  simp

theorem cell_constant_board {H W : Nat} (v : Int) {r k : Nat} (hr : r < H) (hk : k < W) :
    cell (constant_board H W v) (r : Int) (k : Int) = v := by
  simp [cell_cast, constant_board, List.getElem?_replicate, hr, hk]

theorem constant_board_wellFormed (H W : Nat) (v : Int) :
    WellFormed H W (constant_board H W v) := by
  refine ⟨by simp [constant_board], ?_⟩
  intro r hr
  rw [List.eq_of_mem_replicate hr]
  simp

theorem live_set_eq_empty {H W : Nat} {b : Board}
    (h : ∀ r : Nat, r < H → ∀ k : Nat, k < W → cell b (r : Int) (k : Int) = 0) :
    live_set H W b = ∅ := by
  apply Finset.filter_false_of_mem
  intro p hp
  rw [Finset.mem_product, Finset.mem_range, Finset.mem_range] at hp
  simp [h p.1 hp.1 p.2 hp.2]

theorem live_set_eq_all {H W : Nat} {b : Board}
    (h : ∀ r : Nat, r < H → ∀ k : Nat, k < W → cell b (r : Int) (k : Int) ≠ 0) :
    live_set H W b = Finset.range H ×ˢ Finset.range W := by
  apply Finset.filter_true_of_mem
  intro p hp
  rw [Finset.mem_product, Finset.mem_range, Finset.mem_range] at hp
  exact h p.1 hp.1 p.2 hp.2

/-- Claim C7: `living_cells` returns the number of in-range coordinates whose
cell is alive (non-zero); hence it returns 0 on a board whose cells are all
dead and `H * W` on a board whose cells are all alive. -/
theorem living_cells_counts (H W : Nat) :
    (∀ board : Board, living_cells H W board = (live_coordinate_count H W board : Int)) ∧
    (∀ board : Board,
      (∀ r : Nat, r < H → ∀ k : Nat, k < W → cell board (r : Int) (k : Int) = 0) →
      living_cells H W board = 0) ∧
    (∀ board : Board,
      (∀ r : Nat, r < H → ∀ k : Nat, k < W → cell board (r : Int) (k : Int) ≠ 0) →
      living_cells H W board = (H : Int) * (W : Int)) := by
  refine ⟨living_cells_eq_count H W, fun board h => ?_, fun board h => ?_⟩
  · rw [living_cells_eq_count, live_coordinate_count, live_set_eq_empty h]
    simp
  · rw [living_cells_eq_count, live_coordinate_count, live_set_eq_all h]
    simp

/-- Instance of claim C7 on the all-dead and the all-alive 2x3 boards. -/
theorem living_cells_counts_witness :
    (∀ r : Nat, r < 2 → ∀ k : Nat, k < 3 →
      cell [[0, 0, 0], [0, 0, 0]] (r : Int) (k : Int) = 0) ∧
    living_cells 2 3 [[0, 0, 0], [0, 0, 0]] = 0 ∧
    (∀ r : Nat, r < 2 → ∀ k : Nat, k < 3 →
      cell [[1, 1, 1], [1, 1, 1]] (r : Int) (k : Int) ≠ 0) ∧
    living_cells 2 3 [[1, 1, 1], [1, 1, 1]] = ((2 : Nat) : Int) * ((3 : Nat) : Int) :=
  ⟨by decide, (living_cells_counts 2 3).2.1 [[0, 0, 0], [0, 0, 0]] (by decide),
    by decide, (living_cells_counts 2 3).2.2 [[1, 1, 1], [1, 1, 1]] (by decide)⟩

/-! ## The main loop -/

theorem wrap32_of_range {n : Int} (h0 : -2147483648 ≤ n) (h1 : n ≤ 2147483647) :
    wrap32 n = n := by
  unfold wrap32
  rw [Int.emod_eq_of_lt] <;> omega

theorem wrap32_le (n : Int) : wrap32 n ≤ INT_MAX := by
  unfold wrap32 INT_MAX
  have := Int.emod_lt_of_pos (n + 2147483648) (show (0 : Int) < 4294967296 by decide)
  omega

theorem run_loop_exit {H W : Nat} {maxSteps : Int} {s : MainState}
    (h : ¬ loop_condition maxSteps s) (fuel : Nat) :
    run_loop H W maxSteps fuel s = some s := by
  cases fuel <;> simp [run_loop, h]

theorem run_loop_succ {H W : Nat} {maxSteps : Int} {s : MainState}
    (h : loop_condition maxSteps s) (fuel : Nat) :
    run_loop H W maxSteps (fuel + 1) s = run_loop H W maxSteps fuel (main_step H W s) := by
  simp [run_loop, h]

/-- Pacing ticks only advance `betweenStep`. -/
theorem run_loop_ticks {H W : Nat} {k : Int} (initial scratch : Board) {m : Nat}
    (hm : (m : Int) ≤ k) (n : Nat) :
    ∀ (t : Nat), t + n ≤ SIMULATION_SPEED → ∀ fuel : Nat,
      run_loop H W k (n + fuel) (rendered H W initial scratch m (t : Int))
        = run_loop H W k fuel (rendered H W initial scratch m ((t + n : Nat) : Int)) := by
  have hS : (SIMULATION_SPEED : Int) = 100000000 := by simp [SIMULATION_SPEED]
  induction n with
  | zero => intro t _ fuel; simp
  | succ n ih =>
    intro t ht fuel
    have hc : loop_condition k (rendered H W initial scratch m (t : Int)) := Or.inl hm
    rw [show n + 1 + fuel = (n + fuel) + 1 by omega, run_loop_succ hc]
    have hlt : (t : Int) < (SIMULATION_SPEED : Int) := by
      have : t < SIMULATION_SPEED := by omega
      exact_mod_cast this
    have hstep : main_step H W (rendered H W initial scratch m (t : Int))
        = rendered H W initial scratch m ((t + 1 : Nat) : Int) := by
      have hw : wrap32 ((t : Int) + 1) = ((t + 1 : Nat) : Int) := by
        rw [wrap32_of_range] <;> push_cast <;> omega
      simp only [main_step, rendered, if_pos hlt, hw]
    rw [hstep, ih (t + 1) (by omega) fuel, show t + 1 + n = t + (n + 1) by omega]

/-- A render prints the current board with the current step, increments the
step and advances the generation. -/
theorem run_loop_render {H W : Nat} {k : Int} (initial scratch : Board) {m : Nat}
    (hm : (m : Int) ≤ k) (hk : (m : Int) < INT_MAX) {between : Int}
    (hb : ¬ between < (SIMULATION_SPEED : Int)) (fuel : Nat) :
    run_loop H W k (fuel + 1) (rendered H W initial scratch m between)
      = run_loop H W k fuel (rendered H W initial scratch (m + 1) 0) := by
  have hc : loop_condition k (rendered H W initial scratch m between) := Or.inl hm
  rw [run_loop_succ hc]
  have hw : wrap32 ((m : Int) + 1) = ((m + 1 : Nat) : Int) := by
    unfold INT_MAX at hk
    rw [wrap32_of_range] <;> push_cast <;> omega
  have hstep : main_step H W (rendered H W initial scratch m between)
      = rendered H W initial scratch (m + 1) 0 := by
    simp only [main_step, rendered, if_neg hb, hw, render_trace, List.range_succ,
      List.map_append, List.map_cons, List.map_nil, generations]
  rw [hstep]

theorem main_init_eq (H W : Nat) (initial scratch : Board) :
    main_init initial scratch = rendered H W initial scratch 0 INT_MAX := by
  simp [main_init, rendered, render_trace, generations]

/-- After `1 + j * (SIMULATION_SPEED + 1)` iterations the loop has rendered
`j + 1` times. -/
theorem run_loop_renders {H W : Nat} {k : Nat} (hk : (k : Int) < INT_MAX)
    (initial scratch : Board) (j : Nat) (hj : j ≤ k) (fuel : Nat) :
    run_loop H W k (1 + j * (SIMULATION_SPEED + 1) + fuel) (main_init initial scratch)
      = run_loop H W k fuel (rendered H W initial scratch (j + 1) 0) := by
  induction j generalizing fuel with
  | zero =>
    rw [main_init_eq H W, show 1 + 0 * (SIMULATION_SPEED + 1) + fuel = fuel + 1 by omega]
    exact run_loop_render initial scratch (by exact_mod_cast Nat.zero_le k)
      (by decide) (by decide) fuel
  | succ j ih =>
    rw [show 1 + (j + 1) * (SIMULATION_SPEED + 1) + fuel
        = 1 + j * (SIMULATION_SPEED + 1) + (SIMULATION_SPEED + (fuel + 1)) by ring,
      ih (by omega)]
    have hjk : ((j + 1 : Nat) : Int) ≤ (k : Int) := by exact_mod_cast hj
    have h := run_loop_ticks (H := H) (W := W) initial scratch hjk SIMULATION_SPEED 0
      (by omega) (fuel + 1)
    simp only [Nat.cast_zero, Nat.zero_add] at h
    rw [h]
    exact run_loop_render initial scratch hjk (by omega) (by simp) fuel

theorem render_trace_steps (H W : Nat) (initial scratch : Board) (m : Nat) :
    (render_trace H W initial scratch m).map Prod.snd
      = (List.range m).map (fun i : Nat => (i : Int)) := by
  simp [render_trace, Function.comp_def]

theorem main_returns {H W : Nat} {k : Nat} (hk : (k : Int) < INT_MAX)
    (initial scratch : Board) (fuel : Nat) :
    main H W (k : Int) initial scratch (1 + k * (SIMULATION_SPEED + 1) + fuel)
      = some (0, render_trace H W initial scratch (k + 1)) := by
  have hstop : ¬ loop_condition (k : Int) (rendered H W initial scratch (k + 1) 0) := by
    show ¬ ((k : Int) ≥ ((k + 1 : Nat) : Int) ∨ (k : Int) = -1)
    rintro (h | h) <;> omega
  simp only [main, run_loop_renders hk initial scratch k (Nat.le_refl k) fuel,
    run_loop_exit hstop]
  rfl

/-- With the step limit at `INT_MAX` the loop test never fails. -/
theorem run_loop_int_max (H W : Nat) (fuel : Nat) :
    ∀ s : MainState, s.gameStep ≤ INT_MAX → run_loop H W INT_MAX fuel s = none := by
  induction fuel with
  | zero =>
    intro s hs
    simp [run_loop, loop_condition, hs]
  | succ fuel ih =>
    intro s hs
    have hc : loop_condition INT_MAX s := Or.inl hs
    rw [run_loop_succ hc]
    apply ih
    simp only [main_step]
    split_ifs
    · exact hs
    · exact wrap32_le _

/-- Claim C10, as the code has it: with `MAX_SIMULATION_STEPS` set to `k`,
`0 <= k < INT_MAX`, the main loop terminates (every large enough iteration
budget lets `main` return), `main` returns exit code 0, and `print_board`
has then been called exactly `k + 1` times, with step arguments
`0, 1, ..., k` in that order. -/
theorem main_step_limit (H W : Nat) (k : Nat) (hk : (k : Int) < INT_MAX)
    (initial scratch : Board) :
    ∃ fuel : Nat, ∀ fuel2 : Nat, fuel ≤ fuel2 →
      ∃ printed : List (Board × Int),
        main H W (k : Int) initial scratch fuel2 = some (0, printed) ∧
        printed.length = k + 1 ∧
        printed.map Prod.snd = (List.range (k + 1)).map (fun i : Nat => (i : Int)) := by
  refine ⟨1 + k * (SIMULATION_SPEED + 1), fun fuel2 h => ?_⟩
  obtain ⟨extra, rfl⟩ := Nat.exists_eq_add_of_le h
  exact ⟨render_trace H W initial scratch (k + 1), main_returns hk initial scratch extra,
    by simp [render_trace], render_trace_steps H W initial scratch (k + 1)⟩

/-- Instance of the amended claim C10 for `MAX_SIMULATION_STEPS = 2` on the
default 10x10 board size. -/
theorem main_step_limit_witness :
    (((2 : Nat) : Int) < INT_MAX) ∧
    ∃ fuel : Nat, ∀ fuel2 : Nat, fuel ≤ fuel2 →
      ∃ printed : List (Board × Int),
        main 10 10 ((2 : Nat) : Int) (constant_board 10 10 1) (constant_board 10 10 0) fuel2
          = some (0, printed) ∧
        printed.length = 2 + 1 ∧
        printed.map Prod.snd = (List.range (2 + 1)).map (fun i : Nat => (i : Int)) :=
  ⟨by decide, main_step_limit 10 10 2 (by decide) (constant_board 10 10 1) (constant_board 10 10 0)⟩

/-- Claim C10 fails as stated at `k = INT_MAX = 2147483647`: the test
`MAX_SIMULATION_STEPS >= gameStep` then holds for every value a 32-bit
`gameStep` can take, so the loop never ends and `main` never returns. -/
theorem main_never_returns_at_int_max :
    ¬ ∃ fuel : Nat,
      (main 10 10 2147483647 (constant_board 10 10 1) (constant_board 10 10 0) fuel).isSome := by
  rintro ⟨fuel, h⟩
  have hr := run_loop_int_max 10 10 fuel
    (main_init (constant_board 10 10 1) (constant_board 10 10 0)) (by decide)
  simp only [INT_MAX] at hr
  simp [main, hr] at h

/-! ## Concrete boards: the corner of the torus and the glider -/

/-- A well-formed board that agrees cell by cell with the rule is the board
`update_board` produces. -/
theorem update_board_eq_of_cells {H W : Nat} {cur prev next : Board}
    (hc : WellFormed H W cur) (hp : WellFormed H W prev) (hn : WellFormed H W next)
    (h : ∀ r : Nat, r < H → ∀ k : Nat, k < W →
      cell next (r : Int) (k : Int) = rule_value H W cur r k (cell cur (r : Int) (k : Int))) :
    update_board H W cur prev = (next, cur) := by
  apply Prod.ext
  · apply board_ext (update_board_wellFormed hc hp) hn
    intro r k hr hk
    rw [update_board_cell hc hp hr hk, h r hr k hk]
  · exact update_board_snd hc hp

theorem board_with_wellFormed (H W : Nat) (live : List (Nat × Nat)) :
    WellFormed H W (board_with H W live) := by
  refine ⟨by simp [board_with], ?_⟩
  intro r hr
  simp only [board_with, List.mem_map] at hr
  obtain ⟨_, _, rfl⟩ := hr
  simp

theorem cell_board_with {H W : Nat} (live : List (Nat × Nat)) {r k : Nat}
    (hr : r < H) (hk : k < W) :
    cell (board_with H W live) (r : Int) (k : Int) = if (r, k) ∈ live then 1 else 0 := by
  simp [cell_cast, board_with, List.getElem?_map, List.getElem?_range, hr, hk]

theorem live_set_board_with {H W : Nat} (live : List (Nat × Nat))
    (h : ∀ p ∈ live, p.1 < H ∧ p.2 < W) :
    live_set H W (board_with H W live) = live.toFinset := by
  ext p
  simp only [live_set, Finset.mem_filter, Finset.mem_product, Finset.mem_range, List.mem_toFinset]
  constructor
  · rintro ⟨⟨hr, hk⟩, hne⟩
    rw [cell_board_with live hr hk] at hne
    by_contra hp
    exact hne (if_neg hp)
  · intro hp
    obtain ⟨hr, hk⟩ := h p hp
    refine ⟨⟨hr, hk⟩, ?_⟩
    rw [cell_board_with live hr hk, if_pos hp]
    decide

theorem living_cells_board_with {H W : Nat} (live : List (Nat × Nat))
    (h : ∀ p ∈ live, p.1 < H ∧ p.2 < W) :
    living_cells H W (board_with H W live) = (live.toFinset.card : Int) := by
  rw [living_cells_eq_count, ← live_set_board_with live h]
  rfl

/-- Claim C5: on a 10x10 board the neighbours counted for cell `(0, 0)`
include the wraparound cells `(9,9)`, `(9,0)`, `(9,1)`, `(0,9)` and `(1,9)`:
with only one of them alive `surrounding_cells(board, 0, 0)` returns 1, and
with exactly these five alive it returns 5. -/
theorem surrounding_cells_corner_wraps :
    surrounding_cells 10 10 (board_with 10 10 [(9, 9)]) 0 0 = 1 ∧
    surrounding_cells 10 10 (board_with 10 10 [(9, 0)]) 0 0 = 1 ∧
    surrounding_cells 10 10 (board_with 10 10 [(9, 1)]) 0 0 = 1 ∧
    surrounding_cells 10 10 (board_with 10 10 [(0, 9)]) 0 0 = 1 ∧
    surrounding_cells 10 10 (board_with 10 10 [(1, 9)]) 0 0 = 1 ∧
    surrounding_cells 10 10 (board_with 10 10 [(9, 9), (9, 0), (9, 1), (0, 9), (1, 9)]) 0 0 = 5 := by
  decide!

theorem glider_generation_1 : ∀ r : Nat, r < 20 → ∀ k : Nat, k < 20 →
    cell (board_with 20 20 [(1, 0), (1, 2), (2, 1), (2, 2), (3, 1)]) (r : Int) (k : Int)
      = rule_value 20 20 (board_with 20 20 glider_cells) r k
          (cell (board_with 20 20 glider_cells) (r : Int) (k : Int)) := by
  decide!

theorem glider_generation_2 : ∀ r : Nat, r < 20 → ∀ k : Nat, k < 20 →
    cell (board_with 20 20 [(1, 2), (2, 0), (2, 2), (3, 1), (3, 2)]) (r : Int) (k : Int)
      = rule_value 20 20 (board_with 20 20 [(1, 0), (1, 2), (2, 1), (2, 2), (3, 1)]) r k
          (cell (board_with 20 20 [(1, 0), (1, 2), (2, 1), (2, 2), (3, 1)]) (r : Int) (k : Int)) := by
  decide!

theorem glider_generation_3 : ∀ r : Nat, r < 20 → ∀ k : Nat, k < 20 →
    cell (board_with 20 20 [(1, 1), (2, 2), (2, 3), (3, 1), (3, 2)]) (r : Int) (k : Int)
      = rule_value 20 20 (board_with 20 20 [(1, 2), (2, 0), (2, 2), (3, 1), (3, 2)]) r k
          (cell (board_with 20 20 [(1, 2), (2, 0), (2, 2), (3, 1), (3, 2)]) (r : Int) (k : Int)) := by
  decide!

theorem glider_generation_4 : ∀ r : Nat, r < 20 → ∀ k : Nat, k < 20 →
    cell (board_with 20 20 [(1, 2), (2, 3), (3, 1), (3, 2), (3, 3)]) (r : Int) (k : Int)
      = rule_value 20 20 (board_with 20 20 [(1, 1), (2, 2), (2, 3), (3, 1), (3, 2)]) r k
          (cell (board_with 20 20 [(1, 1), (2, 2), (2, 3), (3, 1), (3, 2)]) (r : Int) (k : Int)) := by
  decide!

theorem glider_generations (scratch : Board) (hs : WellFormed 20 20 scratch) :
    (generations 20 20 1 (board_with 20 20 glider_cells, scratch)).1
      = board_with 20 20 [(1, 0), (1, 2), (2, 1), (2, 2), (3, 1)] ∧
    (generations 20 20 2 (board_with 20 20 glider_cells, scratch)).1
      = board_with 20 20 [(1, 2), (2, 0), (2, 2), (3, 1), (3, 2)] ∧
    (generations 20 20 3 (board_with 20 20 glider_cells, scratch)).1
      = board_with 20 20 [(1, 1), (2, 2), (2, 3), (3, 1), (3, 2)] ∧
    (generations 20 20 4 (board_with 20 20 glider_cells, scratch)).1
      = board_with 20 20 [(1, 2), (2, 3), (3, 1), (3, 2), (3, 3)] := by
  have e1 : generations 20 20 1 (board_with 20 20 glider_cells, scratch)
      = (board_with 20 20 [(1, 0), (1, 2), (2, 1), (2, 2), (3, 1)],
          board_with 20 20 glider_cells) :=
    update_board_eq_of_cells (board_with_wellFormed _ _ _) hs (board_with_wellFormed _ _ _)
      glider_generation_1
  have e2 : generations 20 20 2 (board_with 20 20 glider_cells, scratch)
      = (board_with 20 20 [(1, 2), (2, 0), (2, 2), (3, 1), (3, 2)],
          board_with 20 20 [(1, 0), (1, 2), (2, 1), (2, 2), (3, 1)]) := by
    rw [generations, e1]
    exact update_board_eq_of_cells (board_with_wellFormed _ _ _) (board_with_wellFormed _ _ _)
      (board_with_wellFormed _ _ _) glider_generation_2
  have e3 : generations 20 20 3 (board_with 20 20 glider_cells, scratch)
      = (board_with 20 20 [(1, 1), (2, 2), (2, 3), (3, 1), (3, 2)],
          board_with 20 20 [(1, 2), (2, 0), (2, 2), (3, 1), (3, 2)]) := by
    rw [generations, e2]
    exact update_board_eq_of_cells (board_with_wellFormed _ _ _) (board_with_wellFormed _ _ _)
      (board_with_wellFormed _ _ _) glider_generation_3
  have e4 : generations 20 20 4 (board_with 20 20 glider_cells, scratch)
      = (board_with 20 20 [(1, 2), (2, 3), (3, 1), (3, 2), (3, 3)],
          board_with 20 20 [(1, 1), (2, 2), (2, 3), (3, 1), (3, 2)]) := by
    rw [generations, e3]
    exact update_board_eq_of_cells (board_with_wellFormed _ _ _) (board_with_wellFormed _ _ _)
      (board_with_wellFormed _ _ _) glider_generation_4
  rw [e1, e2, e3, e4]
  exact ⟨rfl, rfl, rfl, rfl⟩

/-- Claim C6: on a 20x20 board whose only live cells are the glider
`(0,1), (1,2), (2,0), (2,1), (2,2)`, after 4 successive calls of
`update_board` the set of live cells is the original set translated by
`(+1, +1)`, and `living_cells` returns 5 on each of the generations 0 to 4;
the initial contents of the previous-step buffer do not matter. -/
theorem glider_translates (scratch : Board) (hs : WellFormed 20 20 scratch) :
    live_set 20 20 (board_with 20 20 glider_cells)
      = {(0, 1), (1, 2), (2, 0), (2, 1), (2, 2)} ∧
    live_set 20 20 (generations 20 20 4 (board_with 20 20 glider_cells, scratch)).1
      = (live_set 20 20 (board_with 20 20 glider_cells)).image (fun p => (p.1 + 1, p.2 + 1)) ∧
    ∀ i : Nat, i ≤ 4 →
      living_cells 20 20 (generations 20 20 i (board_with 20 20 glider_cells, scratch)).1 = 5 := by
  obtain ⟨e1, e2, e3, e4⟩ := glider_generations scratch hs
  have e0 : (generations 20 20 0 (board_with 20 20 glider_cells, scratch)).1
      = board_with 20 20 glider_cells := rfl
  refine ⟨?_, ?_, ?_⟩
  · rw [live_set_board_with _ (by decide)]
    decide
  · rw [e4, live_set_board_with _ (by decide), live_set_board_with _ (by decide)]
    decide
  · intro i hi
    interval_cases i
    · rw [e0, living_cells_board_with _ (by decide)]; decide
    · rw [e1, living_cells_board_with _ (by decide)]; decide
    · rw [e2, living_cells_board_with _ (by decide)]; decide
    · rw [e3, living_cells_board_with _ (by decide)]; decide
    · rw [e4, living_cells_board_with _ (by decide)]; decide

/-- Instance of claim C6 with an all-zero previous-step buffer. -/
theorem glider_translates_witness :
    WellFormed 20 20 (constant_board 20 20 0) ∧
    live_set 20 20 (generations 20 20 4
        (board_with 20 20 glider_cells, constant_board 20 20 0)).1
      = (live_set 20 20 (board_with 20 20 glider_cells)).image (fun p => (p.1 + 1, p.2 + 1)) :=
  ⟨constant_board_wellFormed 20 20 0,
    (glider_translates (constant_board 20 20 0) (constant_board_wellFormed 20 20 0)).2.1⟩

/-! ## The snapshot in the previous-step buffer -/

/-- Claim C15: after `update_board(currentStepBoard, previousStepBoard)` the
buffer `previousStepBoard` holds, cell for cell, the contents
`currentStepBoard` had before the call. -/
theorem update_board_snapshot (H W : Nat) (currentStepBoard previousStepBoard : Board)
    (hc : WellFormed H W currentStepBoard) (hp : WellFormed H W previousStepBoard) :
    (update_board H W currentStepBoard previousStepBoard).2 = currentStepBoard ∧
    ∀ row col : Nat, row < H → col < W →
      cell (update_board H W currentStepBoard previousStepBoard).2 (row : Int) (col : Int)
        = cell currentStepBoard (row : Int) (col : Int) := by
  have h := update_board_snd hc hp
  exact ⟨h, fun row col _ _ => by rw [h]⟩

/-- Instance of claim C15 on a 2x2 board and a scratch buffer of other values. -/
theorem update_board_snapshot_witness :
    WellFormed 2 2 [[1, 0], [1, 1]] ∧ WellFormed 2 2 [[8, 8], [8, 8]] ∧
    (update_board 2 2 [[1, 0], [1, 1]] [[8, 8], [8, 8]]).2 = [[1, 0], [1, 1]] :=
  ⟨by decide, by decide,
    (update_board_snapshot 2 2 [[1, 0], [1, 1]] [[8, 8], [8, 8]] (by decide) (by decide)).1⟩

/-! ## Tiny boards -/

/-- Claim C17: on a 1x1 board each of the 8 offsets wraps onto the cell
itself, so `surrounding_cells(board, 0, 0)` returns 8 when the single cell is
alive (non-zero) and 0 when it is dead. -/
theorem surrounding_cells_one_by_one (v : Int) :
    surrounding_cells 1 1 [[v]] 0 0 = if v ≠ 0 then 8 else 0 := by
  have hc : ∀ y x : Int, cell [[v]] (y % ((1 : Nat) : Int)) (x % ((1 : Nat) : Int)) = v := by
    intro y x
    simp [cell, readCell]
  rw [surrounding_cells_eq_count [[v]] (le_refl (0 : Int)) (by decide) (le_refl (0 : Int))
    (by decide)]
  simp only [toroidal_neighbour_count, hc, neighbour_offsets_eq]
  by_cases hv : v = 0
  · simp [hv]
  · simp [hv]

/-! ## Adjusted offsets stay in range -/

/-- The adjusted offset keeps an in-range coordinate in range. -/
theorem wrapOffset_in_range {n : Nat} {p : Int} (h0 : 0 ≤ p) (hn : p < (n : Int)) {d : Int}
    (hd : d = -1 ∨ d = 0 ∨ d = 1) :
    0 ≤ p + wrapOffset n p d ∧ p + wrapOffset n p d < (n : Int) := by
  unfold wrapOffset
  split_ifs with h1 h2 <;> omega

/-! ## Translation on the torus -/

/-- The relation "`sb` is `b` shifted by `(a, c)` on the torus", on integer
coordinates. -/
theorem shifted_cell_int {H W : Nat} {a c : Int} {b sb : Board}
    (hshift : ∀ row : Nat, row < H → ∀ col : Nat, col < W →
      cell sb (((row : Int) + a) % (H : Int)) (((col : Int) + c) % (W : Int))
        = cell b (row : Int) (col : Int))
    {y x : Int} (hy0 : 0 ≤ y) (hy : y < (H : Int)) (hx0 : 0 ≤ x) (hx : x < (W : Int)) :
    cell sb ((y + a) % (H : Int)) ((x + c) % (W : Int)) = cell b y x := by
  have h := hshift y.toNat (by omega) x.toNat (by omega)
  rw [Int.toNat_of_nonneg hy0, Int.toNat_of_nonneg hx0] at h
  exact h

/-- A shifted board has the same neighbour counts at the shifted cells. -/
theorem shifted_neighbour_count {H W : Nat} {a c : Int} {b sb : Board}
    (hshift : ∀ row : Nat, row < H → ∀ col : Nat, col < W →
      cell sb (((row : Int) + a) % (H : Int)) (((col : Int) + c) % (W : Int))
        = cell b (row : Int) (col : Int))
    {y x : Int} (hy : y < (H : Int)) (hx : x < (W : Int)) (hy0 : 0 ≤ y) (hx0 : 0 ≤ x) :
    toroidal_neighbour_count H W sb ((y + a) % (H : Int)) ((x + c) % (W : Int))
      = toroidal_neighbour_count H W b y x := by
  have hH : (0 : Int) < (H : Int) := by omega
  have hW : (0 : Int) < (W : Int) := by omega
  unfold toroidal_neighbour_count
  congr 1
  apply List.filter_congr
  intro o _
  have e1 : ((y + a) % (H : Int) + o.1) % (H : Int) = ((y + o.1) % (H : Int) + a) % (H : Int) := by
    rw [Int.emod_add_emod, Int.emod_add_emod]
    congr 1
    ring
  have e2 : ((x + c) % (W : Int) + o.2) % (W : Int) = ((x + o.2) % (W : Int) + c) % (W : Int) := by
    rw [Int.emod_add_emod, Int.emod_add_emod]
    congr 1
    ring
  rw [e1, e2, shifted_cell_int hshift (Int.emod_nonneg _ (ne_of_gt hH))
    (Int.emod_lt_of_pos _ hH) (Int.emod_nonneg _ (ne_of_gt hW)) (Int.emod_lt_of_pos _ hW)]

/-- Claim C18: the transition commutes with toroidal translation: if `sb` is
the board `b` shifted by `(a, c)`, that is
`sb[(row+a) mod H][(col+c) mod W] = b[row][col]` for all in-range cells, then
the next generation computed from `sb` is the next generation computed from
`b` shifted by `(a, c)`. -/
theorem update_board_commutes_with_shift (H W : Nat) (a c : Int)
    (b sb previous1 previous2 : Board)
    (hb : WellFormed H W b) (hsb : WellFormed H W sb)
    (hp1 : WellFormed H W previous1) (hp2 : WellFormed H W previous2)
    (hshift : ∀ row : Nat, row < H → ∀ col : Nat, col < W →
      cell sb (((row : Int) + a) % (H : Int)) (((col : Int) + c) % (W : Int))
        = cell b (row : Int) (col : Int)) :
    ∀ row col : Nat, row < H → col < W →
      cell (update_board H W sb previous1).1
          (((row : Int) + a) % (H : Int)) (((col : Int) + c) % (W : Int))
        = cell (update_board H W b previous2).1 (row : Int) (col : Int) := by
  intro row col hrow hcol
  have hH : (0 : Int) < (H : Int) := by omega
  have hW : (0 : Int) < (W : Int) := by omega
  have hy0 : (0 : Int) ≤ (row : Int) := Int.ofNat_nonneg row
  have hx0 : (0 : Int) ≤ (col : Int) := Int.ofNat_nonneg col
  have hy : (row : Int) < (H : Int) := Int.ofNat_lt.mpr hrow
  have hx : (col : Int) < (W : Int) := Int.ofNat_lt.mpr hcol
  have hR0 := Int.emod_nonneg ((row : Int) + a) (ne_of_gt hH)
  have hR1 := Int.emod_lt_of_pos ((row : Int) + a) hH
  have hK0 := Int.emod_nonneg ((col : Int) + c) (ne_of_gt hW)
  have hK1 := Int.emod_lt_of_pos ((col : Int) + c) hW
  obtain ⟨R, hR⟩ := Int.eq_ofNat_of_zero_le hR0
  obtain ⟨K, hK⟩ := Int.eq_ofNat_of_zero_le hK0
  have hRH : R < H := by omega
  have hKW : K < W := by omega
  have hcell : cell sb (R : Int) (K : Int) = cell b (row : Int) (col : Int) := by
    rw [← hR, ← hK]
    exact shifted_cell_int hshift hy0 hy hx0 hx
  have hcount : surrounding_cells H W sb (K : Int) (R : Int)
      = surrounding_cells H W b (col : Int) (row : Int) := by
    rw [surrounding_cells_eq_count sb (Int.ofNat_nonneg K) (Int.ofNat_lt.mpr hKW)
        (Int.ofNat_nonneg R) (Int.ofNat_lt.mpr hRH),
      surrounding_cells_eq_count b hx0 hx hy0 hy, ← hR, ← hK,
      shifted_neighbour_count hshift hy hx hy0 hx0]
  rw [hR, hK, update_board_cell hsb hp1 hRH hKW, update_board_cell hb hp2 hrow hcol]
  simp only [rule_value, hcell, hcount]

/-- Instance of claim C18: a 3x3 board and its shift by `(1, -1)`. -/
theorem update_board_commutes_with_shift_witness :
    WellFormed 3 3 [[1, 1, 0], [0, 1, 0], [0, 0, 0]] ∧
    WellFormed 3 3 [[0, 0, 0], [1, 0, 1], [1, 0, 0]] ∧
    (∀ row : Nat, row < 3 → ∀ col : Nat, col < 3 →
      cell [[0, 0, 0], [1, 0, 1], [1, 0, 0]]
          (((row : Int) + 1) % ((3 : Nat) : Int)) (((col : Int) + -1) % ((3 : Nat) : Int))
        = cell [[1, 1, 0], [0, 1, 0], [0, 0, 0]] (row : Int) (col : Int)) ∧
    (∀ row col : Nat, row < 3 → col < 3 →
      cell (update_board 3 3 [[0, 0, 0], [1, 0, 1], [1, 0, 0]]
            [[0, 0, 0], [0, 0, 0], [0, 0, 0]]).1
          (((row : Int) + 1) % ((3 : Nat) : Int)) (((col : Int) + -1) % ((3 : Nat) : Int))
        = cell (update_board 3 3 [[1, 1, 0], [0, 1, 0], [0, 0, 0]]
            [[0, 0, 0], [0, 0, 0], [0, 0, 0]]).1 (row : Int) (col : Int)) :=
  ⟨by decide, by decide, by decide,
    update_board_commutes_with_shift 3 3 1 (-1)
      [[1, 1, 0], [0, 1, 0], [0, 0, 0]] [[0, 0, 0], [1, 0, 1], [1, 0, 0]]
      [[0, 0, 0], [0, 0, 0], [0, 0, 0]] [[0, 0, 0], [0, 0, 0], [0, 0, 0]]
      (by decide) (by decide) (by decide) (by decide) (by decide)⟩

/-! ## The loop nest visits the cells in row-major order -/

/-- The loop nest is one loop over the row-major index `i`, at cell
`(i / W, i % W)`. -/
theorem board_loop_flat {σ : Type} (H W : Nat) (body : σ → Nat → Nat → σ) (s : σ) :
    board_loop H W body s
      = (List.range (H * W)).foldl (fun s i => body s (i / W) (i % W)) s := by
  unfold board_loop
  induction H with
  | zero => simp
  | succ H ih =>
    rw [List.range_succ, List.foldl_append, ih, Nat.succ_mul, List.range_add,
      List.foldl_append, List.foldl_map]
    simp only [List.foldl_cons, List.foldl_nil]
    apply List.foldl_ext
    intro a w hw
    have hw2 : w < W := List.mem_range.mp hw
    have hW : 0 < W := by omega
    rw [Nat.mul_comm H W, Nat.mul_add_div hW, Nat.div_eq_of_lt hw2, Nat.mul_add_mod,
      Nat.mod_eq_of_lt hw2, Nat.add_zero]

/-- A row-major index below `H * W` names an in-range cell. -/
theorem flat_index_lt {H W i : Nat} (h : i < H * W) : i / W < H ∧ i % W < W := by
  have hW : 0 < W := by
    rcases Nat.eq_zero_or_pos W with h0 | h0
    · subst h0; simp at h
    · exact h0
  exact ⟨(Nat.div_lt_iff_lt_mul hW).mpr h, Nat.mod_lt _ hW⟩

/-- Two row-major indices with the same cell are equal. -/
theorem flat_index_inj {W i j : Nat} (h1 : i / W = j / W) (h2 : i % W = j % W) : i = j := by
  rw [← Nat.div_add_mod i W, ← Nat.div_add_mod j W, h1, h2]

/-! ## `read_board` -/

theorem nonspace_dropWhile (l : List Char) : nonspace (l.dropWhile isspace) = nonspace l := by
  induction l with
  | nil => rfl
  | cons c cs ih =>
    by_cases hc : isspace c = true
    · simp only [List.dropWhile_cons, hc, if_true, ih]
      simp [nonspace, hc]
    · simp [List.dropWhile_cons, hc]

theorem dropWhile_isspace_cons {l : List Char} {c : Char} {rest : List Char}
    (h : l.dropWhile isspace = c :: rest) : nonspace l = c :: nonspace rest := by
  have hc : isspace c = false := by
    have := List.head_dropWhile_not isspace l
    simp only [h] at this
    simpa using this (by simp)
  rw [← nonspace_dropWhile l, h]
  simp [nonspace, hc]

/-- At the end of the input `fscanf` returns `EOF` and stores nothing. -/
theorem fscanf_char_eof {input : List Char} (h : nonspace input = []) :
    fscanf_char input = (-1, none, []) := by
  unfold fscanf_char
  cases hd : input.dropWhile isspace with
  | nil => rfl
  | cons c rest =>
    rw [dropWhile_isspace_cons hd] at h
    exact absurd h (by simp)

/-- Otherwise `fscanf` returns 1, stores the next non-whitespace character and
leaves the rest. -/
theorem fscanf_char_next {input : List Char} {c : Char} {t : List Char}
    (h : nonspace input = c :: t) :
    ∃ rest, fscanf_char input = (1, some c, rest) ∧ nonspace rest = t := by
  unfold fscanf_char
  cases hd : input.dropWhile isspace with
  | nil =>
    rw [← nonspace_dropWhile input, hd] at h
    exact absurd h (by simp [nonspace])
  | cons c2 rest =>
    rw [dropWhile_isspace_cons hd] at h
    injection h with h1 h2
    subst h1
    exact ⟨rest.dropWhile isspace, rfl, by rw [nonspace_dropWhile, h2]⟩

/-- The state of `read_board` after the first `i` cells: the board holds the
first `i` non-whitespace characters, or the process has ended with the number
of characters found. -/
theorem read_loop_spec {H W : Nat} {board : Board} (hb : WellFormed H W board)
    (content : List Char) (i : Nat) (hi : i ≤ H * W) :
    (i ≤ (nonspace content).length →
      ∃ b input,
        (List.range i).foldl (fun s i => read_body H W s (i / W) (i % W))
            (Except.ok (board, content)) = Except.ok (b, input) ∧
        nonspace input = (nonspace content).drop i ∧ WellFormed H W b ∧
        ∀ j : Nat, j < i →
          cell b ((j / W : Nat) : Int) ((j % W : Nat) : Int)
            = if (nonspace content)[j]? = some '1' then 1 else 0) ∧
    ((nonspace content).length < i →
      (List.range i).foldl (fun s i => read_body H W s (i / W) (i % W))
          (Except.ok (board, content))
        = Except.error (ReadError.invalid_number ((nonspace content).length : Int)
            ((W : Int) * (H : Int)))) := by
  induction i with
  | zero =>
    refine ⟨fun _ => ⟨board, content, rfl, rfl, hb, fun j hj => absurd hj (Nat.not_lt_zero j)⟩,
      fun h => absurd h (Nat.not_lt_zero _)⟩
  | succ i ih =>
    obtain ⟨ih1, ih2⟩ := ih (Nat.le_of_succ_le hi)
    obtain ⟨hr, hk⟩ := flat_index_lt (Nat.lt_of_succ_le hi)
    rw [List.range_succ, List.foldl_append]
    simp only [List.foldl_cons, List.foldl_nil]
    constructor
    · intro hlen
      obtain ⟨b, input, hst, hin, hwf, hcells⟩ := ih1 (Nat.le_of_succ_le hlen)
      have hlt : i < (nonspace content).length := Nat.lt_of_succ_le hlen
      have hdrop : nonspace input
          = (nonspace content)[i] :: (nonspace content).drop (i + 1) := by
        rw [hin]
        exact List.drop_eq_getElem_cons hlt
      obtain ⟨rest, hscan, hrest⟩ := fscanf_char_next hdrop
      refine ⟨writeCell b (i / W) (i % W) (if (nonspace content)[i] = '1' then 1 else 0),
        rest, ?_, hrest, writeCell_wellFormed hwf _ _ _, ?_⟩
      · rw [hst]
        simp [read_body, hscan]
      · intro j hj
        rw [cell_writeCell hwf hr hk]
        by_cases hji : j = i
        · subst hji
          simp [List.getElem?_eq_getElem hlt]
        · have hne : ¬ (j / W = i / W ∧ j % W = i % W) :=
            fun h => hji (flat_index_inj h.1 h.2)
          rw [if_neg hne]
          exact hcells j (by omega)
    · intro hlen
      rcases Nat.lt_or_ge (nonspace content).length i with h | h
      · rw [ih2 h]
        rfl
      · have hm : (nonspace content).length = i := by omega
        obtain ⟨b, input, hst, hin, -, -⟩ := ih1 (by omega)
        have hnil : nonspace input = [] := by
          rw [hin, ← hm]
          exact List.drop_length _
        rw [hst]
        simp only [read_body, fscanf_char_eof hnil]
        have hidx : ((i / W : Nat) : Int) * (W : Int) + ((i % W : Nat) : Int) = (i : Int) := by
          have := Nat.div_add_mod i W
          rw [Nat.mul_comm] at this
          exact_mod_cast this
        rw [hm]
        simp only [hidx]
        rfl

/-- On a file with enough non-whitespace characters `read_board` fills the
board from them in row-major order. -/
theorem read_board_fills {H W : Nat} {board : Board} (hb : WellFormed H W board)
    (content : List Char) (hlen : H * W ≤ (nonspace content).length) :
    ∃ b, read_board H W board (some content) = Except.ok b ∧ WellFormed H W b ∧
      ∀ row : Nat, row < H → ∀ col : Nat, col < W →
        cell b (row : Int) (col : Int)
          = if (nonspace content)[row * W + col]? = some '1' then 1 else 0 := by
  obtain ⟨b, input, hst, -, hwf, hcells⟩ :=
    (read_loop_spec hb content (H * W) (Nat.le_refl _)).1 hlen
  refine ⟨b, ?_, hwf, ?_⟩
  · simp only [read_board, board_loop_flat, hst]
  · intro row hrow col hcol
    have hj : row * W + col < H * W := by
      calc row * W + col < row * W + W := by omega
        _ = (row + 1) * W := by ring
        _ ≤ H * W := Nat.mul_le_mul_right W hrow
    have h := hcells (row * W + col) hj
    have hW : 0 < W := by omega
    rw [Nat.mul_comm row W, Nat.mul_add_div hW, Nat.div_eq_of_lt hcol, Nat.mul_add_mod,
      Nat.mod_eq_of_lt hcol, Nat.add_zero] at h
    rw [Nat.mul_comm row W]
    exact h

/-- On a file with too few non-whitespace characters `read_board` ends the
process and reports how many it found. -/
theorem read_board_short {H W : Nat} {board : Board} (hb : WellFormed H W board)
    (content : List Char) (hlen : (nonspace content).length < H * W) :
    read_board H W board (some content)
      = Except.error (ReadError.invalid_number ((nonspace content).length : Int)
          ((W : Int) * (H : Int))) := by
  have h := (read_loop_spec hb content (H * W) (Nat.le_refl _)).2 hlen
  simp only [read_board, board_loop_flat, h]

/-! ## Tokens of the startup file -/

/-- The tokens, put end to end, are the non-whitespace characters. -/
theorem tokens_from_flatten (l : List Char) :
    ∀ current : List Char, (tokens_from l current).flatten = current ++ nonspace l := by
  induction l with
  | nil =>
    intro current
    by_cases h : current = []
    · simp [tokens_from, h, nonspace]
    · simp [tokens_from, h, nonspace]
  | cons c cs ih =>
    intro current
    by_cases hc : isspace c = true
    · by_cases h : current = []
      · simp [tokens_from, hc, h, ih, nonspace]
      · simp [tokens_from, hc, h, ih, nonspace]
    · simp [tokens_from, hc, ih, nonspace]

theorem tokens_flatten (content : List Char) : (tokens content).flatten = nonspace content := by
  simp [tokens, tokens_from_flatten]

/-- A list of one-element lists is determined by its elements. -/
theorem singletons_eq {α : Type} (l : List (List α)) (h : ∀ t ∈ l, t.length = 1) :
    l = l.flatten.map (fun c => [c]) := by
  induction l with
  | nil => rfl
  | cons t ts ih =>
    have ht : t.length = 1 := h t (List.mem_cons_self _ _)
    obtain ⟨c, rfl⟩ := List.length_eq_one.mp ht
    have := ih (fun u hu => h u (List.mem_cons_of_mem _ hu))
    simp only [List.flatten_cons, List.singleton_append, List.map_cons]
    rw [← this]

/-- When every token is a single character, token number `i` is the `i`-th
non-whitespace character. -/
theorem tokens_single {content : List Char} (h : ∀ t ∈ tokens content, t.length = 1) :
    tokens content = (nonspace content).map (fun c => [c]) := by
  rw [← tokens_flatten]
  exact singletons_eq _ h

theorem tokens_from_space (gap rest : List Char) (hgap : ∀ c ∈ gap, isspace c = true) :
    tokens_from (gap ++ rest) [] = tokens_from rest [] := by
  induction gap with
  | nil => rfl
  | cons c cs ih =>
    have hc : isspace c = true := hgap c (List.mem_cons_self _ _)
    simp only [List.cons_append, tokens_from, hc, if_true]
    exact ih (fun d hd => hgap d (List.mem_cons_of_mem _ hd))

/-- A cell character followed by a non-empty gap is one token. -/
theorem tokens_from_cell (v : Int) (gap rest : List Char) (hne : gap ≠ [])
    (hgap : ∀ c ∈ gap, isspace c = true) :
    tokens_from (cell_char v :: (gap ++ rest)) [] = [cell_char v] :: tokens_from rest [] := by
  have hv : isspace (cell_char v) = false := by
    unfold cell_char
    split_ifs <;> decide
  cases gap with
  | nil => exact absurd rfl hne
  | cons c cs =>
    have hc : isspace c = true := hgap c (List.mem_cons_self _ _)
    simp only [List.cons_append, tokens_from, hv, hc, List.nil_append, if_true]
    simp only [Bool.false_eq_true, if_false, List.cons_ne_nil]
    exact congrArg (fun t => [cell_char v] :: t)
      (tokens_from_space cs rest (fun d hd => hgap d (List.mem_cons_of_mem _ hd)))

theorem tokens_from_row (gap : List Char) (hne : gap ≠ [])
    (hgap : ∀ c ∈ gap, isspace c = true) (row : List Int) (rest : List Char) :
    tokens_from ((row.map (fun v => cell_char v :: gap)).flatten ++ rest) []
      = row.map (fun v => [cell_char v]) ++ tokens_from rest [] := by
  induction row with
  | nil => rfl
  | cons v vs ih =>
    simp only [List.map_cons, List.flatten_cons, List.cons_append, List.append_assoc]
    rw [tokens_from_cell v gap _ hne hgap, ih]

/-- What `write_board` writes is in the startup file format. -/
theorem write_board_format (gap : List Char) (hne : gap ≠ [])
    (hgap : ∀ c ∈ gap, isspace c = true) (b : Board) :
    startup_format b (write_board gap b) := by
  unfold startup_format tokens write_board
  have h : ∀ rest : List Char,
      tokens_from ((b.map (fun row => (row.map (fun v => cell_char v :: gap)).flatten)).flatten
          ++ rest) []
        = b.flatten.map (fun v => [cell_char v]) ++ tokens_from rest [] := by
    induction b with
    | nil => intro rest; rfl
    | cons row rows ih =>
      intro rest
      simp only [List.map_cons, List.flatten_cons, List.append_assoc, List.map_append]
      rw [tokens_from_row gap hne hgap, ih]
  have h2 := h []
  simpa [tokens_from] using h2

/-! ## `read_board`: failure, row-major filling and round trip -/

/-- Claim C11: on the content of `start.txt`, `read_board` fails (ends the
process, with exit code 1) if and only if the content holds fewer than
`H * W` non-whitespace characters; on a content with `m` such characters the
failure reports `m` cells found out of `W * H`. -/
theorem read_board_fails_iff (H W : Nat) (board : Board) (hb : WellFormed H W board)
    (content : List Char) :
    ((∃ e, read_board H W board (some content) = Except.error e)
      ↔ (nonspace content).length < H * W) ∧
    (∀ e, read_board H W board (some content) = Except.error e →
      e = ReadError.invalid_number ((nonspace content).length : Int) ((W : Int) * (H : Int)) ∧
      ReadError.exit_code e = 1) := by
  rcases Nat.lt_or_ge (nonspace content).length (H * W) with h | h
  · have hs := read_board_short hb content h
    refine ⟨⟨fun _ => h, fun _ => ⟨_, hs⟩⟩, fun e he => ?_⟩
    rw [hs] at he
    injection he with he
    exact ⟨he.symm, rfl⟩
  · obtain ⟨b, hok, -, -⟩ := read_board_fills hb content h
    refine ⟨⟨fun ⟨e, he⟩ => ?_, fun hlt => absurd hlt (Nat.not_lt.mpr h)⟩, fun e he => ?_⟩
    · rw [hok] at he
      cases he
    · rw [hok] at he
      cases he

/-- Instance of claim C11: a 2x2 board read from a file with two cells. -/
theorem read_board_fails_iff_witness :
    WellFormed 2 2 [[7, 7], [7, 7]] ∧
    ((∃ e, read_board 2 2 [[7, 7], [7, 7]] (some ['1', ' ', '0', ' ']) = Except.error e)
      ↔ (nonspace ['1', ' ', '0', ' ']).length < 2 * 2) ∧
    read_board 2 2 [[7, 7], [7, 7]] (some ['1', ' ', '0', ' '])
      = Except.error (ReadError.invalid_number 2 4) :=
  ⟨by decide,
    (read_board_fails_iff 2 2 [[7, 7], [7, 7]] (by decide) ['1', ' ', '0', ' ']).1,
    rfl⟩

/-- Claim C12: when `start.txt` holds at least `H * W` whitespace-delimited
single-character tokens, `read_board` succeeds and fills the board in
row-major order: `board[row][col]` is 1 if token number `row * W + col` is the
character `1` and 0 for any other character. -/
theorem read_board_row_major (H W : Nat) (board : Board) (hb : WellFormed H W board)
    (content : List Char) (hsingle : ∀ t ∈ tokens content, t.length = 1)
    (hcount : H * W ≤ (tokens content).length) :
    ∃ b, read_board H W board (some content) = Except.ok b ∧ WellFormed H W b ∧
      ∀ row : Nat, row < H → ∀ col : Nat, col < W →
        cell b (row : Int) (col : Int)
          = if (tokens content)[row * W + col]? = some ['1'] then 1 else 0 := by
  have ht := tokens_single hsingle
  have hlen : H * W ≤ (nonspace content).length := by
    rw [ht, List.length_map] at hcount
    exact hcount
  obtain ⟨b, hok, hwf, hcells⟩ := read_board_fills hb content hlen
  refine ⟨b, hok, hwf, fun row hrow col hcol => ?_⟩
  rw [hcells row hrow col hcol, ht, List.getElem?_map]
  cases (nonspace content)[row * W + col]? with
  | none => simp
  | some c => simp

/-- Instance of claim C12: a 2x2 board read from `1 x` / `0 1`; the character
`x` is read as a dead cell. -/
theorem read_board_row_major_witness :
    WellFormed 2 2 [[7, 7], [7, 7]] ∧
    (∀ t ∈ tokens ['1', ' ', 'x', Char.ofNat 10, '0', ' ', '1', Char.ofNat 10],
      t.length = 1) ∧
    2 * 2 ≤ (tokens ['1', ' ', 'x', Char.ofNat 10, '0', ' ', '1', Char.ofNat 10]).length ∧
    read_board 2 2 [[7, 7], [7, 7]]
        (some ['1', ' ', 'x', Char.ofNat 10, '0', ' ', '1', Char.ofNat 10])
      = Except.ok [[1, 0], [0, 1]] ∧
    ∃ b, read_board 2 2 [[7, 7], [7, 7]]
        (some ['1', ' ', 'x', Char.ofNat 10, '0', ' ', '1', Char.ofNat 10]) = Except.ok b ∧
      WellFormed 2 2 b ∧
      ∀ row : Nat, row < 2 → ∀ col : Nat, col < 2 →
        cell b (row : Int) (col : Int)
          = if (tokens ['1', ' ', 'x', Char.ofNat 10, '0', ' ', '1', Char.ofNat 10])[
              row * 2 + col]? = some ['1'] then 1 else 0 :=
  ⟨by decide, by decide, by decide, rfl,
    read_board_row_major 2 2 [[7, 7], [7, 7]] (by decide)
      ['1', ' ', 'x', Char.ofNat 10, '0', ' ', '1', Char.ofNat 10] (by decide) (by decide)⟩

/-! ## Boards of zeros and ones -/

theorem binary_cell {H W : Nat} {b : Board} (hb : WellFormed H W b) (hbin : Binary b)
    {r k : Nat} (hr : r < H) (hk : k < W) :
    cell b (r : Int) (k : Int) = 0 ∨ cell b (r : Int) (k : Int) = 1 := by
  obtain ⟨h1, h2, e⟩ := cell_of_lt hb hr hk
  rw [e]
  exact hbin _ (List.getElem_mem h1) _ (List.getElem_mem h2)

theorem binary_of_cells {H W : Nat} {b : Board} (hb : WellFormed H W b)
    (h : ∀ r : Nat, r < H → ∀ k : Nat, k < W →
      cell b (r : Int) (k : Int) = 0 ∨ cell b (r : Int) (k : Int) = 1) : Binary b := by
  intro row hrow v hv
  obtain ⟨r, h1, rfl⟩ := List.getElem_of_mem hrow
  obtain ⟨k, h2, rfl⟩ := List.getElem_of_mem hv
  have hr : r < H := by rw [← hb.1]; exact h1
  have hk : k < W := by rw [← hb.2 _ (List.getElem_mem h1)]; exact h2
  obtain ⟨_, _, e⟩ := cell_of_lt hb hr hk
  rw [← e]
  exact h r hr k hk

/-- Row-major indexing of the cells put end to end. -/
theorem flatten_getElem? {W : Nat} (b : Board) (hrows : ∀ row ∈ b, row.length = W)
    (r k : Nat) (hk : k < W) :
    b.flatten[r * W + k]? = (b[r]?).bind (fun row => row[k]?) := by
  induction b generalizing r with
  | nil => simp
  | cons row rows ih =>
    have hlen : row.length = W := hrows row (List.mem_cons_self _ _)
    have hrest : ∀ row2 ∈ rows, row2.length = W :=
      fun row2 h2 => hrows row2 (List.mem_cons_of_mem _ h2)
    cases r with
    | zero =>
      simp only [Nat.zero_mul, Nat.zero_add, List.flatten_cons, List.getElem?_cons_zero,
        Option.some_bind]
      rw [List.getElem?_append_left (by omega)]
    | succ r =>
      simp only [List.flatten_cons, List.getElem?_cons_succ]
      rw [List.getElem?_append_right (by rw [hlen, Nat.succ_mul]; omega), ← ih hrest r]
      congr 1
      rw [hlen, Nat.succ_mul]
      omega

theorem flatten_length {H W : Nat} {b : Board} (hb : WellFormed H W b) :
    b.flatten.length = H * W := by
  obtain ⟨h1, h2⟩ := hb
  induction b generalizing H with
  | nil => simp at h1; simp [← h1]
  | cons row rows ih =>
    have hlen : row.length = W := h2 row (List.mem_cons_self _ _)
    have := ih (H := rows.length) rfl (fun row2 hr2 => h2 row2 (List.mem_cons_of_mem _ hr2))
    simp only [List.length_cons] at h1
    rw [List.flatten_cons, List.length_append, this, hlen, ← h1, Nat.succ_mul]
    omega

/-- Claim C13: a board of zeros and ones, written in the startup file format
(row-major, one character `0` or `1` per cell, cells separated by whitespace)
and read back by `read_board`, is reproduced exactly; the writer
`write_board` produces such a text. -/
theorem read_board_round_trip (H W : Nat) (b board : Board)
    (hb : WellFormed H W b) (hbin : Binary b) (hboard : WellFormed H W board) :
    (∀ content : List Char, startup_format b content →
      read_board H W board (some content) = Except.ok b) ∧
    (∀ gap : List Char, gap ≠ [] → (∀ c ∈ gap, isspace c = true) →
      startup_format b (write_board gap b) ∧
      read_board H W board (some (write_board gap b)) = Except.ok b) := by
  have main : ∀ content : List Char, startup_format b content →
      read_board H W board (some content) = Except.ok b := by
    intro content hfmt
    unfold startup_format at hfmt
    have hns : nonspace content = b.flatten.map cell_char := by
      rw [← tokens_flatten, hfmt]
      generalize b.flatten = l
      induction l with
      | nil => rfl
      | cons v vs ih => simp [ih]
    have hlen : H * W ≤ (nonspace content).length := by
      rw [hns, List.length_map, flatten_length hb]
    obtain ⟨b2, hok, hwf, hcells⟩ := read_board_fills hboard content hlen
    rw [hok]
    congr 1
    apply board_ext hwf hb
    intro r k hr hk
    rw [hcells r hr k hk, hns, List.getElem?_map, flatten_getElem? b hb.2 r k hk]
    obtain ⟨h1, h2, e⟩ := cell_of_lt hb hr hk
    rw [List.getElem?_eq_getElem h1, Option.some_bind, List.getElem?_eq_getElem h2, ← e]
    rcases binary_cell hb hbin hr hk with h | h <;> rw [h] <;> decide
  refine ⟨main, fun gap hne hgap => ?_⟩
  have hfmt := write_board_format gap hne hgap b
  exact ⟨hfmt, main _ hfmt⟩

/-- Instance of claim C13: the board `0 1` / `1 1` written with one space
after each cell. -/
theorem read_board_round_trip_witness :
    WellFormed 2 2 [[0, 1], [1, 1]] ∧ Binary [[0, 1], [1, 1]] ∧
    WellFormed 2 2 [[7, 7], [7, 7]] ∧
    write_board [' '] [[0, 1], [1, 1]] = ['0', ' ', '1', ' ', '1', ' ', '1', ' '] ∧
    read_board 2 2 [[7, 7], [7, 7]] (some (write_board [' '] [[0, 1], [1, 1]]))
      = Except.ok [[0, 1], [1, 1]] :=
  ⟨by decide, by decide, by decide, by decide,
    ((read_board_round_trip 2 2 [[0, 1], [1, 1]] [[7, 7], [7, 7]]
      (by decide) (by decide) (by decide)).2 [' '] (by decide) (by decide)).2⟩

/-! ## `print_board` -/

theorem foldl_append_flatten {α β : Type} (f : α → List β) (l : List α) (init : List β) :
    l.foldl (fun out x => out ++ f x) init = init ++ (l.map f).flatten := by
  induction l generalizing init with
  | nil => simp
  | cons x xs ih => simp [ih]

/-- Claim C14: with the default flags the text `print_board` emits after
clearing the screen is the line
`There are <live_count> cells alive on game step <step>`, with
`live_count = living_cells(board)`, followed by `H` newline-terminated lines of
`W` two-byte glyphs each, two bytes 219 for a live cell and two spaces for a
dead one, in row-major order. -/
theorem print_board_text (H W : Nat) (board : Board) (step : Int) :
    print_board H W board step = board_text H W board step ∧
    board_text H W board step
      = text_bytes "There are " ++ format_d (living_cells H W board)
          ++ text_bytes " cells alive on game step " ++ format_d step ++ [10]
          ++ ((List.range H).map (fun (row : Nat) =>
              ((List.range W).map (fun (col : Nat) =>
                if cell board (row : Int) (col : Int) ≠ 0 then [219, 219] else [32, 32])).flatten
                ++ [10])).flatten := by
  refine ⟨?_, rfl⟩
  have hrow : ∀ (h : Nat) (out : List Nat),
      (List.range W).foldl
        (fun (out : List Nat) (widthIndex : Nat) =>
          if cell board (h : Int) (widthIndex : Int) ≠ 0 then out ++ [219, 219]
          else if SHOW_DEAD_CELLS ≠ 0 then out ++ [176, 176]
          else out ++ [32, 32])
        out ++ [10]
      = out ++ (((List.range W).map (fun col : Nat =>
          if cell board (h : Int) (col : Int) ≠ 0 then [219, 219] else [32, 32])).flatten
            ++ [10]) := by
    intro h out
    rw [← List.append_assoc, ← foldl_append_flatten]
    congr 1
    apply List.foldl_ext
    intro acc w _
    split_ifs with h1 h2
    · rfl
    · exact absurd rfl h2
    · rfl
  unfold print_board board_text
  simp only [hrow]
  rw [foldl_append_flatten, if_pos (by decide), display_stats]

/-! ## The main loop as a step relation -/

/-- A pacing tick changes `betweenStep` only. -/
theorem main_step_tick {H W : Nat} {s : MainState}
    (h : s.betweenStep < (SIMULATION_SPEED : Int)) :
    main_step H W s = { s with betweenStep := wrap32 (s.betweenStep + 1) } := by
  simp only [main_step, if_pos h]

/-- A render prints, increments the step counter and calls `update_board`. -/
theorem main_step_render {H W : Nat} {s : MainState}
    (h : ¬ s.betweenStep < (SIMULATION_SPEED : Int)) :
    main_step H W s =
      { gameStep := wrap32 (s.gameStep + 1), betweenStep := 0,
        currentStepBoard := (update_board H W s.currentStepBoard s.previousStepBoard).1,
        previousStepBoard := (update_board H W s.currentStepBoard s.previousStepBoard).2,
        printed := s.printed ++ [(s.currentStepBoard, s.gameStep)] } := by
  simp only [main_step, if_neg h]

theorem main_step_rendered_tick (H W : Nat) (initial scratch : Board) (m t : Nat)
    (ht : t < SIMULATION_SPEED) :
    main_step H W (rendered H W initial scratch m (t : Int))
      = rendered H W initial scratch m ((t + 1 : Nat) : Int) := by
  have hS : (SIMULATION_SPEED : Int) = 100000000 := by simp [SIMULATION_SPEED]
  have hlt : (t : Int) < (SIMULATION_SPEED : Int) := by exact_mod_cast ht
  have hw : wrap32 ((t : Int) + 1) = ((t + 1 : Nat) : Int) := by
    rw [wrap32_of_range] <;> push_cast <;> omega
  simp only [main_step, rendered, if_pos hlt, hw]

theorem main_step_rendered_render (H W : Nat) (initial scratch : Board) (m : Nat)
    (hm : (m : Int) < INT_MAX) {between : Int} (hb : ¬ between < (SIMULATION_SPEED : Int)) :
    main_step H W (rendered H W initial scratch m between)
      = rendered H W initial scratch (m + 1) 0 := by
  have hw : wrap32 ((m : Int) + 1) = ((m + 1 : Nat) : Int) := by
    unfold INT_MAX at hm
    rw [wrap32_of_range] <;> push_cast <;> omega
  simp only [main_step, rendered, if_neg hb, hw, render_trace, List.range_succ,
    List.map_append, List.map_cons, List.map_nil, generations]

/-- Without a step limit every state `rendered m t` with `1 <= m <= INT_MAX`
renders and `t <= SIMULATION_SPEED` ticks is passed through. -/
theorem reachable_rendered (H W : Nat) (initial scratch : Board) (m : Nat)
    (hm : ((m + 1 : Nat) : Int) ≤ INT_MAX) :
    ∀ t : Nat, t ≤ SIMULATION_SPEED →
      Reachable H W (-1) initial scratch (rendered H W initial scratch (m + 1) (t : Int)) := by
  have hcond : ∀ s : MainState, loop_condition (-1) s := fun s => Or.inr rfl
  induction m with
  | zero =>
    intro t
    induction t with
    | zero =>
      intro _
      have h := Reachable.step (@Reachable.start H W (-1) initial scratch) (hcond _)
      rw [main_init_eq H W, main_step_rendered_render H W initial scratch 0 (by decide)
        (by decide)] at h
      exact h
    | succ t iht =>
      intro ht
      have h := Reachable.step (iht (by omega)) (hcond _)
      rw [main_step_rendered_tick H W initial scratch _ t (by omega)] at h
      exact h
  | succ m ih =>
    have hm2 : ((m + 1 : Nat) : Int) ≤ INT_MAX := by
      unfold INT_MAX at hm ⊢
      push_cast at hm ⊢
      omega
    intro t
    induction t with
    | zero =>
      intro _
      have h := Reachable.step (ih hm2 SIMULATION_SPEED (Nat.le_refl _)) (hcond _)
      rw [main_step_rendered_render H W initial scratch (m + 1)
        (by unfold INT_MAX at hm ⊢; push_cast at hm ⊢; omega) (by simp)] at h
      exact h
    | succ t iht =>
      intro ht
      have h := Reachable.step (iht (by omega)) (hcond _)
      rw [main_step_rendered_tick H W initial scratch _ t (by omega)] at h
      exact h

/-- While at most `INT_MAX` renders have happened, `gameStep` is the number of
renders and the boards are the generation of that number; the first
`INT_MAX + 1` renders show generation `i` with step `i`. -/
theorem reachable_invariant {H W : Nat} {maxSteps : Int} {initial scratch : Board}
    {s : MainState} (hs : Reachable H W maxSteps initial scratch s) :
    ((s.printed.length : Int) ≤ INT_MAX →
      s.gameStep = (s.printed.length : Int) ∧
      s.currentStepBoard = (generations H W s.printed.length (initial, scratch)).1 ∧
      s.previousStepBoard = (generations H W s.printed.length (initial, scratch)).2) ∧
    ((s.printed.length : Int) ≤ INT_MAX + 1 →
      s.printed = render_trace H W initial scratch s.printed.length) := by
  induction hs with
  | start =>
    simp [main_init, render_trace, generations]
  | step hr hc ih =>
    rename_i s
    obtain ⟨ih1, ih2⟩ := ih
    by_cases hb : s.betweenStep < (SIMULATION_SPEED : Int)
    · rw [main_step_tick hb]
      exact ⟨ih1, ih2⟩
    · rw [main_step_render hb]
      simp only [List.length_append, List.length_singleton, Nat.cast_add, Nat.cast_one]
      constructor
      · intro hlen
        obtain ⟨e1, e2, e3⟩ := ih1 (by omega)
        refine ⟨?_, ?_, ?_⟩
        · rw [e1, wrap32_of_range] <;> unfold INT_MAX at hlen <;> omega
        · rw [generations, ← e2, ← e3]
        · rw [generations, ← e2, ← e3]
      · intro hlen
        obtain ⟨e1, e2, -⟩ := ih1 (by omega)
        have e4 := ih2 (by omega)
        rw [render_trace, List.range_succ, List.map_append, ← render_trace, ← e4]
        simp only [List.map_cons, List.map_nil, ← e2, e1]

theorem wrap32_ge (n : Int) : -2147483648 ≤ wrap32 n := by
  unfold wrap32
  have := Int.emod_nonneg (n + 2147483648) (show (4294967296 : Int) ≠ 0 by decide)
  omega

/-- The step counter of a state of the loop is a 32-bit `int`. -/
theorem reachable_gameStep_range {H W : Nat} {maxSteps : Int} {initial scratch : Board}
    {s : MainState} (hs : Reachable H W maxSteps initial scratch s) :
    -2147483648 ≤ s.gameStep ∧ s.gameStep ≤ INT_MAX := by
  induction hs with
  | start => simp [main_init, INT_MAX]
  | step hr hc ih =>
    rename_i s
    by_cases hb : s.betweenStep < (SIMULATION_SPEED : Int)
    · rw [main_step_tick hb]
      exact ih
    · rw [main_step_render hb]
      exact ⟨wrap32_ge _, wrap32_le _⟩

/-- Claim C16, as the code has it: `gameStep` starts at 0; in every state of
the loop a pacing tick leaves `gameStep`, the board and the output unchanged,
and a render prints the current board with the current step and, when
`gameStep < INT_MAX`, increases `gameStep` by exactly 1; while no more than
`INT_MAX` renders have happened `gameStep` is the number of renders, and each
of the first `INT_MAX + 1` renders shows, with step `i`, the board obtained by
`i` calls of `update_board` from the initial board. -/
theorem main_loop_steps (H W : Nat) (maxSteps : Int) (initial scratch : Board)
    (s : MainState) (hs : Reachable H W maxSteps initial scratch s) :
    (main_init initial scratch).gameStep = 0 ∧
    (s.betweenStep < (SIMULATION_SPEED : Int) →
      (main_step H W s).gameStep = s.gameStep ∧
      (main_step H W s).currentStepBoard = s.currentStepBoard ∧
      (main_step H W s).printed = s.printed) ∧
    (¬ s.betweenStep < (SIMULATION_SPEED : Int) →
      (main_step H W s).printed = s.printed ++ [(s.currentStepBoard, s.gameStep)] ∧
      (s.gameStep < INT_MAX → (main_step H W s).gameStep = s.gameStep + 1)) ∧
    ((s.printed.length : Int) ≤ INT_MAX →
      s.gameStep = (s.printed.length : Int) ∧
      s.currentStepBoard = (generations H W s.printed.length (initial, scratch)).1) ∧
    ((s.printed.length : Int) ≤ INT_MAX + 1 →
      ∀ i : Nat, i < s.printed.length →
        s.printed[i]? = some ((generations H W i (initial, scratch)).1, (i : Int))) := by
  obtain ⟨inv1, inv2⟩ := reachable_invariant hs
  obtain ⟨r1, r2⟩ := reachable_gameStep_range hs
  refine ⟨rfl, fun hb => ?_, fun hb => ?_, fun hlen => ?_, fun hlen i hi => ?_⟩
  · rw [main_step_tick hb]
    exact ⟨rfl, rfl, rfl⟩
  · rw [main_step_render hb]
    refine ⟨rfl, fun hlt => ?_⟩
    show wrap32 (s.gameStep + 1) = s.gameStep + 1
    unfold INT_MAX at hlt
    rw [wrap32_of_range] <;> omega
  · exact ⟨(inv1 hlen).1, (inv1 hlen).2.1⟩
  · rw [inv2 hlen, render_trace, List.getElem?_map, List.getElem?_range hi]
    rfl

/-- Instance of the amended claim C16: the first iteration of the loop is a
render that prints the initial board with step 0 and sets `gameStep` to 1. -/
theorem main_loop_steps_witness :
    Reachable 10 10 (-1) (constant_board 10 10 1) (constant_board 10 10 0)
      (main_init (constant_board 10 10 1) (constant_board 10 10 0)) ∧
    (main_step 10 10 (main_init (constant_board 10 10 1) (constant_board 10 10 0))).printed
      = [(constant_board 10 10 1, 0)] ∧
    (main_step 10 10 (main_init (constant_board 10 10 1) (constant_board 10 10 0))).gameStep
      = 0 + 1 :=
  ⟨Reachable.start,
    ((main_loop_steps 10 10 (-1) (constant_board 10 10 1) (constant_board 10 10 0)
      (main_init (constant_board 10 10 1) (constant_board 10 10 0)) Reachable.start).2.2.1
        (by decide)).1,
    ((main_loop_steps 10 10 (-1) (constant_board 10 10 1) (constant_board 10 10 0)
      (main_init (constant_board 10 10 1) (constant_board 10 10 0)) Reachable.start).2.2.1
        (by decide)).2 (by decide)⟩

/-- Claim C16 fails as stated: with no step limit the loop reaches a state
with `gameStep = INT_MAX = 2147483647` whose next iteration is a render, and
that render takes `gameStep` down to `-2147483648` (the increment of the
32-bit counter wraps) instead of increasing it by 1. -/
theorem game_step_wraps_at_int_max :
    ∃ s : MainState,
      Reachable 10 10 (-1) (constant_board 10 10 1) (constant_board 10 10 0) s ∧
      loop_condition (-1) s ∧ ¬ s.betweenStep < (SIMULATION_SPEED : Int) ∧
      s.gameStep = 2147483647 ∧ (main_step 10 10 s).gameStep = -2147483648 := by
  refine ⟨rendered 10 10 (constant_board 10 10 1) (constant_board 10 10 0) (2147483646 + 1)
    ((SIMULATION_SPEED : Nat) : Int), ?_, Or.inr rfl, ?_, ?_, ?_⟩
  · exact reachable_rendered 10 10 _ _ 2147483646 (by decide) SIMULATION_SPEED (Nat.le_refl _)
  · exact lt_irrefl _
  · show ((2147483646 + 1 : Nat) : Int) = 2147483647
    decide
  · have hb : ¬ (rendered 10 10 (constant_board 10 10 1) (constant_board 10 10 0)
        (2147483646 + 1) ((SIMULATION_SPEED : Nat) : Int)).betweenStep
          < (SIMULATION_SPEED : Int) := lt_irrefl _
    rw [main_step_render hb]
    show wrap32 (((2147483646 + 1 : Nat) : Int) + 1) = -2147483648
    decide

/-! ## Only zeros and ones -/

/-- The row-major index of an in-range cell. -/
theorem flat_index_of_cell {H W r k : Nat} (hr : r < H) (hk : k < W) :
    r * W + k < H * W ∧ (r * W + k) / W = r ∧ (r * W + k) % W = k := by
  have hW : 0 < W := by omega
  refine ⟨?_, ?_, ?_⟩
  · calc r * W + k < r * W + W := by omega
      _ = (r + 1) * W := by ring
      _ ≤ H * W := Nat.mul_le_mul_right W hr
  · rw [Nat.mul_comm r W, Nat.mul_add_div hW, Nat.div_eq_of_lt hk, Nat.add_zero]
  · rw [Nat.mul_comm r W, Nat.mul_add_mod, Nat.mod_eq_of_lt hk]

/-- The state of `generate_board` after the first `i` cells. -/
theorem generate_loop_spec {H W : Nat} (rand : Nat → Nat) {board : Board}
    (hb : WellFormed H W board) (i : Nat) (hi : i ≤ H * W) :
    WellFormed H W ((List.range i).foldl
        (fun (s : Board × Nat) i =>
          (writeCell s.1 (i / W) (i % W) ((rand s.2 : Int) % 2), s.2 + 1)) (board, 0)).1 ∧
    ((List.range i).foldl
        (fun (s : Board × Nat) i =>
          (writeCell s.1 (i / W) (i % W) ((rand s.2 : Int) % 2), s.2 + 1)) (board, 0)).2 = i ∧
    ∀ j : Nat, j < i →
      cell ((List.range i).foldl
          (fun (s : Board × Nat) i =>
            (writeCell s.1 (i / W) (i % W) ((rand s.2 : Int) % 2), s.2 + 1)) (board, 0)).1
          ((j / W : Nat) : Int) ((j % W : Nat) : Int) = (rand j : Int) % 2 := by
  induction i with
  | zero => exact ⟨hb, rfl, fun j hj => absurd hj (Nat.not_lt_zero j)⟩
  | succ i ih =>
    obtain ⟨hwf, hcnt, hcells⟩ := ih (Nat.le_of_succ_le hi)
    obtain ⟨hr, hk⟩ := flat_index_lt (Nat.lt_of_succ_le hi)
    rw [List.range_succ, List.foldl_append]
    simp only [List.foldl_cons, List.foldl_nil]
    refine ⟨writeCell_wellFormed hwf _ _ _, by rw [hcnt], fun j hj => ?_⟩
    rw [cell_writeCell hwf hr hk, hcnt]
    by_cases hji : j = i
    · subst hji
      simp
    · have hne : ¬ (j / W = i / W ∧ j % W = i % W) := fun h => hji (flat_index_inj h.1 h.2)
      rw [if_neg hne]
      exact hcells j (by omega)

/-- `generate_board` fills every cell with `rand() % 2`, the calls of `rand`
being made in row-major order. -/
theorem generate_board_spec {H W : Nat} (rand : Nat → Nat) {board : Board}
    (hb : WellFormed H W board) :
    WellFormed H W (generate_board H W rand board) ∧
    ∀ r : Nat, r < H → ∀ k : Nat, k < W →
      cell (generate_board H W rand board) (r : Int) (k : Int) = (rand (r * W + k) : Int) % 2 := by
  obtain ⟨hwf, -, hcells⟩ := generate_loop_spec rand hb (H * W) (Nat.le_refl _)
  unfold generate_board
  rw [board_loop_flat]
  refine ⟨hwf, fun r hr k hk => ?_⟩
  obtain ⟨h1, h2, h3⟩ := flat_index_of_cell hr hk
  have h := hcells (r * W + k) h1
  rw [h2, h3] at h
  exact h

theorem update_board_binary {H W : Nat} {cur prev : Board}
    (hc : WellFormed H W cur) (hp : WellFormed H W prev) (hbin : Binary cur) :
    Binary (update_board H W cur prev).1 ∧ Binary (update_board H W cur prev).2 := by
  refine ⟨?_, by rw [update_board_snd hc hp]; exact hbin⟩
  apply binary_of_cells (update_board_wellFormed hc hp)
  intro r hr k hk
  rw [update_board_cell hc hp hr hk]
  unfold rule_value
  split_ifs
  · exact Or.inl rfl
  · exact Or.inr rfl
  · exact binary_cell hc hbin hr hk

theorem reachable_binary {H W : Nat} {maxSteps : Int} {initial scratch : Board}
    (hi : WellFormed H W initial) (hsc : WellFormed H W scratch) (hbin : Binary initial)
    {s : MainState} (hs : Reachable H W maxSteps initial scratch s) :
    WellFormed H W s.currentStepBoard ∧ WellFormed H W s.previousStepBoard ∧
    Binary s.currentStepBoard ∧ (∀ p ∈ s.printed, Binary p.1) ∧
    (s.printed ≠ [] → Binary s.previousStepBoard) := by
  induction hs with
  | start =>
    exact ⟨hi, hsc, hbin, fun p hp => absurd hp (List.not_mem_nil p), fun h => absurd rfl h⟩
  | step hr hc ih =>
    rename_i s
    obtain ⟨w1, w2, b1, b2, b3⟩ := ih
    by_cases hb : s.betweenStep < (SIMULATION_SPEED : Int)
    · rw [main_step_tick hb]
      exact ⟨w1, w2, b1, b2, b3⟩
    · rw [main_step_render hb]
      obtain ⟨u1, u2⟩ := update_board_binary w1 w2 b1
      refine ⟨update_board_wellFormed w1 w2, ?_, u1, ?_, fun _ => u2⟩
      · rw [update_board_snd w1 w2]; exact w1
      · intro p hp
        rcases List.mem_append.mp hp with h | h
        · exact b2 p h
        · rw [List.mem_singleton.mp h]; exact b1

/-- Claim C19: if every cell of `currentStepBoard` is 0 or 1 before
`update_board`, every cell of both arrays is 0 or 1 after it;
`generate_board` and `read_board` write only 0 or 1; hence in every state of
the simulation, started from either, the current board, every board printed
and, once a step has been made, the previous-step buffer hold only 0 and 1. -/
theorem boards_stay_binary (H W : Nat) :
    (∀ cur prev : Board, WellFormed H W cur → WellFormed H W prev → Binary cur →
      Binary (update_board H W cur prev).1 ∧ Binary (update_board H W cur prev).2) ∧
    (∀ (rand : Nat → Nat) (board : Board), WellFormed H W board →
      Binary (generate_board H W rand board)) ∧
    (∀ (board : Board) (file : Option (List Char)) (b : Board), WellFormed H W board →
      read_board H W board file = Except.ok b → Binary b) ∧
    (∀ (maxSteps : Int) (initial scratch : Board) (s : MainState),
      WellFormed H W initial → WellFormed H W scratch → Binary initial →
      Reachable H W maxSteps initial scratch s →
      Binary s.currentStepBoard ∧ (∀ p ∈ s.printed, Binary p.1) ∧
      (s.printed ≠ [] → Binary s.previousStepBoard)) := by
  refine ⟨fun cur prev hc hp hbin => update_board_binary hc hp hbin,
    fun rand board hb => ?_, fun board file b hb hok => ?_,
    fun maxSteps initial scratch s hi hsc hbin hs => (reachable_binary hi hsc hbin hs).2.2⟩
  · obtain ⟨hwf, hcells⟩ := generate_board_spec rand hb
    apply binary_of_cells hwf
    intro r hr k hk
    rw [hcells r hr k hk]
    omega
  · cases file with
    | none => simp [read_board] at hok
    | some content =>
      rcases Nat.lt_or_ge (nonspace content).length (H * W) with h | h
      · rw [read_board_short hb content h] at hok
        cases hok
      · obtain ⟨b2, hok2, hwf, hcells⟩ := read_board_fills hb content h
        rw [hok2] at hok
        injection hok with hok
        subst hok
        apply binary_of_cells hwf
        intro r hr k hk
        rw [hcells r hr k hk]
        split_ifs
        · exact Or.inr rfl
        · exact Or.inl rfl

/-- Instance of claim C19: one call of `update_board` on a 3x3 board of zeros
and ones, with a scratch buffer of other values. -/
theorem boards_stay_binary_witness :
    WellFormed 3 3 [[1, 1, 0], [1, 0, 0], [0, 0, 1]] ∧
    WellFormed 3 3 [[5, 5, 5], [5, 5, 5], [5, 5, 5]] ∧
    Binary [[1, 1, 0], [1, 0, 0], [0, 0, 1]] ∧
    Binary (update_board 3 3 [[1, 1, 0], [1, 0, 0], [0, 0, 1]]
      [[5, 5, 5], [5, 5, 5], [5, 5, 5]]).1 ∧
    Binary (update_board 3 3 [[1, 1, 0], [1, 0, 0], [0, 0, 1]]
      [[5, 5, 5], [5, 5, 5], [5, 5, 5]]).2 :=
  ⟨by decide, by decide, by decide,
    (boards_stay_binary 3 3).1 [[1, 1, 0], [1, 0, 0], [0, 0, 1]]
      [[5, 5, 5], [5, 5, 5], [5, 5, 5]] (by decide) (by decide) (by decide)⟩

/-! ## Index safety -/

/-- A read at an in-range coordinate is inside the array. -/
theorem readCell_in_range {H W : Nat} {b : Board} (hb : WellFormed H W b) {y x : Int}
    (hy0 : 0 ≤ y) (hy : y < (H : Int)) (hx0 : 0 ≤ x) (hx : x < (W : Int)) :
    readCell b y x = some (cell b y x) := by
  obtain ⟨r, rfl⟩ := Int.eq_ofNat_of_zero_le hy0
  obtain ⟨k, rfl⟩ := Int.eq_ofNat_of_zero_le hx0
  obtain ⟨h1, h2, e⟩ := cell_of_lt hb (Int.ofNat_lt.mp hy) (Int.ofNat_lt.mp hx)
  rw [e]
  simp [readCell, List.getElem?_eq_getElem h1, List.getElem?_eq_getElem h2]

/-- A write at an in-range coordinate is inside the array. -/
theorem writeCell_checked_in_range {H W : Nat} {b : Board} (hb : WellFormed H W b)
    {y x : Nat} (hy : y < H) (hx : x < W) (v : Int) :
    writeCell_checked b y x v = some (writeCell b y x v) := by
  have h1 : y < b.length := by rw [hb.1]; exact hy
  have h2 : x < (b[y]).length := by rw [hb.2 _ (List.getElem_mem h1)]; exact hx
  simp [writeCell_checked, writeCell, List.getElem?_eq_getElem h1, h2]

theorem surrounding_body_checked_eq {H W : Nat} {b : Board} (hb : WellFormed H W b)
    {x y : Int} (hx0 : 0 ≤ x) (hx : x < (W : Int)) (hy0 : 0 ≤ y) (hy : y < (H : Int))
    (dh dw : Int) (hdh : dh = -1 ∨ dh = 0 ∨ dh = 1) (hdw : dw = -1 ∨ dw = 0 ∨ dw = 1)
    (acc : Int) :
    surrounding_body_checked H W b x y dh dw acc = some (surrounding_body H W b x y dh dw acc) := by
  unfold surrounding_body_checked surrounding_body
  by_cases hne : dh ≠ 0 ∨ dw ≠ 0
  · obtain ⟨a1, a2⟩ := wrapOffset_in_range hy0 hy hdh
    obtain ⟨c1, c2⟩ := wrapOffset_in_range hx0 hx hdw
    simp only [if_pos hne, readCell_in_range hb a1 a2 c1 c2]
    split_ifs <;> rfl
  · simp only [if_neg hne]

/-- With bounds-checked indexing `surrounding_cells` never leaves the array at
an in-range cell. -/
theorem surrounding_cells_checked_eq {H W : Nat} {b : Board} (hb : WellFormed H W b)
    {x y : Int} (hx0 : 0 ≤ x) (hx : x < (W : Int)) (hy0 : 0 ≤ y) (hy : y < (H : Int)) :
    surrounding_cells_checked H W b x y = some (surrounding_cells H W b x y) := by
  have hbody := fun (dh dw : Int) (hdh : dh = -1 ∨ dh = 0 ∨ dh = 1)
    (hdw : dw = -1 ∨ dw = 0 ∨ dw = 1) (acc : Int) =>
      surrounding_body_checked_eq hb hx0 hx hy0 hy dh dw hdh hdw acc
  simp only [surrounding_cells_checked, surrounding_cells, List.foldl_cons, List.foldl_nil,
    Option.some_bind,
    hbody (-1) (-1) (by decide) (by decide), hbody (-1) 0 (by decide) (by decide),
    hbody (-1) 1 (by decide) (by decide), hbody 0 (-1) (by decide) (by decide),
    hbody 0 0 (by decide) (by decide), hbody 0 1 (by decide) (by decide),
    hbody 1 (-1) (by decide) (by decide), hbody 1 0 (by decide) (by decide),
    hbody 1 1 (by decide) (by decide)]

/-- A loop nest whose bounds-checked body never fails on a well-formed board
runs like the unchecked one. -/
theorem board_loop_checked {H W : Nat} {body : Board → Nat → Nat → Board}
    {F : Nat → Nat → Int → Int} (hp : PointUpdate H W body F)
    (checked : Board → Nat → Nat → Option Board)
    (hc : ∀ b h w, WellFormed H W b → h < H → w < W → checked b h w = some (body b h w))
    {b : Board} (hb : WellFormed H W b) :
    board_loop H W (fun s h w => s.bind (fun c => checked c h w)) (some b)
      = some (board_loop H W body b) := by
  have hrow : ∀ (h : Nat), h < H → ∀ (c : Board), WellFormed H W c → ∀ n : Nat, n ≤ W →
      (List.range n).foldl (fun s w => s.bind (fun c => checked c h w)) (some c)
        = some ((List.range n).foldl (fun s w => body s h w) c) := by
    intro h hh c hcw n
    induction n with
    | zero => intro _; rfl
    | succ n ih =>
      intro hn
      rw [List.range_succ, List.foldl_append, List.foldl_append, ih (Nat.le_of_succ_le hn)]
      simp only [List.foldl_cons, List.foldl_nil, Option.some_bind]
      exact hc _ h n (row_loop_spec hp hh c hcw n (Nat.le_of_succ_le hn)).1 hh
        (Nat.lt_of_succ_le hn)
  have hall : ∀ m : Nat, m ≤ H →
      (List.range m).foldl
          (fun s h => (List.range W).foldl (fun s w => s.bind (fun c => checked c h w)) s)
          (some b)
        = some ((List.range m).foldl
            (fun s h => (List.range W).foldl (fun s w => body s h w) s) b) := by
    intro m
    induction m with
    | zero => intro _; rfl
    | succ m ih =>
      intro hm
      rw [List.range_succ, List.foldl_append, List.foldl_append, ih (Nat.le_of_succ_le hm)]
      simp only [List.foldl_cons, List.foldl_nil]
      exact hrow m (Nat.lt_of_succ_le hm) _
        (board_loop_spec hp b hb m (Nat.le_of_succ_le hm)).1 W (Nat.le_refl W)
  exact hall H (Nat.le_refl H)

/-- With bounds-checked indexing `update_board` never leaves its arrays. -/
theorem update_board_checked_eq {H W : Nat} {cur prev : Board}
    (hc : WellFormed H W cur) (hp : WellFormed H W prev) :
    update_board_checked H W cur prev = some (update_board H W cur prev) := by
  have h1 := board_loop_checked (copy_body_pointUpdate H W cur)
    (copy_body_checked cur)
    (fun b h w hb hh hw => by
      simp only [copy_body_checked, copy_body,
        readCell_in_range hc (Int.ofNat_nonneg h) (Int.ofNat_lt.mpr hh) (Int.ofNat_nonneg w)
          (Int.ofNat_lt.mpr hw), Option.some_bind]
      exact writeCell_checked_in_range hb hh hw _) hp
  have hprev : WellFormed H W (board_loop H W (copy_body cur) prev) :=
    board_loop_wellFormed (copy_body_pointUpdate H W cur) hp
  have h2 := board_loop_checked
    (rule_body_pointUpdate H W (board_loop H W (copy_body cur) prev))
    (rule_body_checked H W (board_loop H W (copy_body cur) prev))
    (fun b h w hb hh hw => by
      simp only [rule_body_checked, rule_body,
        surrounding_cells_checked_eq hprev (Int.ofNat_nonneg w) (Int.ofNat_lt.mpr hw)
          (Int.ofNat_nonneg h) (Int.ofNat_lt.mpr hh),
        readCell_in_range hprev (Int.ofNat_nonneg h) (Int.ofNat_lt.mpr hh) (Int.ofNat_nonneg w)
          (Int.ofNat_lt.mpr hw), Option.some_bind]
      split_ifs
      · exact writeCell_checked_in_range hb hh hw _
      · exact writeCell_checked_in_range hb hh hw _
      · rfl) hc
  unfold update_board_checked update_board
  rw [h1, Option.some_bind, h2]
  rfl

/-- Claim C20: at an in-range cell each of the 8 accesses
`board[y + tempHeightCheck][x + tempWidthCheck]` of `surrounding_cells` has
`0 <= y + tempHeightCheck < H` and `0 <= x + tempWidthCheck < W`; hence with
bounds-checked indexing neither `surrounding_cells` nor `update_board` ever
takes the out-of-range branch. -/
theorem index_safety (H W : Nat) :
    (∀ y x : Nat, y < H → x < W → ∀ o ∈ neighbour_offsets,
      (0 ≤ (y : Int) + wrapOffset H y o.1 ∧ (y : Int) + wrapOffset H y o.1 < (H : Int)) ∧
      (0 ≤ (x : Int) + wrapOffset W x o.2 ∧ (x : Int) + wrapOffset W x o.2 < (W : Int))) ∧
    (∀ (board : Board) (y x : Nat), WellFormed H W board → y < H → x < W →
      surrounding_cells_checked H W board x y = some (surrounding_cells H W board x y)) ∧
    (∀ currentStepBoard previousStepBoard : Board,
      WellFormed H W currentStepBoard → WellFormed H W previousStepBoard →
      update_board_checked H W currentStepBoard previousStepBoard
        = some (update_board H W currentStepBoard previousStepBoard)) := by
  refine ⟨fun y x hy hx o ho => ?_, fun board y x hb hy hx => ?_,
    fun cur prev hc hp => update_board_checked_eq hc hp⟩
  · have h1 : o.1 = -1 ∨ o.1 = 0 ∨ o.1 = 1 := by
      rw [neighbour_offsets_eq] at ho
      simp only [List.mem_cons, List.mem_singleton, List.not_mem_nil, or_false] at ho
      rcases ho with h | h | h | h | h | h | h | h <;> rw [h] <;> decide
    have h2 : o.2 = -1 ∨ o.2 = 0 ∨ o.2 = 1 := by
      rw [neighbour_offsets_eq] at ho
      simp only [List.mem_cons, List.mem_singleton, List.not_mem_nil, or_false] at ho
      rcases ho with h | h | h | h | h | h | h | h <;> rw [h] <;> decide
    exact ⟨wrapOffset_in_range (Int.ofNat_nonneg y) (Int.ofNat_lt.mpr hy) h1,
      wrapOffset_in_range (Int.ofNat_nonneg x) (Int.ofNat_lt.mpr hx) h2⟩
  · exact surrounding_cells_checked_eq hb (Int.ofNat_nonneg x) (Int.ofNat_lt.mpr hx)
      (Int.ofNat_nonneg y) (Int.ofNat_lt.mpr hy)

/-- Instance of claim C20 on a 2x2 board, where every offset wraps. -/
theorem index_safety_witness :
    WellFormed 2 2 [[1, 0], [1, 1]] ∧ WellFormed 2 2 [[3, 3], [3, 3]] ∧
    update_board_checked 2 2 [[1, 0], [1, 1]] [[3, 3], [3, 3]]
      = some (update_board 2 2 [[1, 0], [1, 1]] [[3, 3], [3, 3]]) :=
  ⟨by decide, by decide,
    (index_safety 2 2).2.2 [[1, 0], [1, 1]] [[3, 3], [3, 3]] (by decide) (by decide)⟩

end GameOfLife
